import Mathlib

/-!
# Verification of `SecurityScriptIdeas` website-graph crawler

Shallow embedding of the repository's core: the URL normalizer
(`normalize_url`, `is_valid_scheme` in `src/website_graph.py`, which delegate
to CPython's `urllib.parse.urljoin`/`urlparse`), the BFS crawl loop
(`build_website_graph`), the graph classifier (`classify_graph`) and the stats
aggregator (`graph_stats`), plus the `web_diver.py` variant of the stats
aggregator.

Conventions of the embedding:
* Python `str` is modelled as `List Char` (`Chars`) internally, `String` at
  the API boundary.
* The relevant parts of CPython 3.11 `urllib.parse` (`urlsplit`, `urlparse`,
  `urlunsplit`, `urlunparse`, `urljoin`) are translated function by function.
  Not modelled: the `ValueError` raised for unbalanced IPv6 brackets in a
  netloc and the NFKC check for non-ASCII netlocs (theorems that would be
  affected carry bracket-freeness hypotheses), byte/str coercion, and the
  `lru_cache` wrapper (pure caching).
* networkx exceptions are modelled by `PyErr`; a function that can raise
  returns `Except PyErr α`.  The networkx class hierarchy puts
  `NetworkXPointlessConcept` directly under `NetworkXException`, *not* under
  `NetworkXError`; the embedding keeps the two distinct so that
  `except nx.NetworkXError` clauses can be modelled faithfully.
* The network, HTML parsing and robots lookups are external capabilities; a
  crawl is parameterised by `fetch : String → Option (List String)` (the raw
  `href` attributes of a successfully fetched page, `none` = fetch failure,
  which `extract_links` turns into `[]`) and `robots : String → Bool`
  (the result of `allowed_by_robots`, whose internal fail-open `try/except`
  already yields a plain boolean).
* Python `float` division in the stats aggregator is modelled exactly over
  `ℚ` (the operands are small machine integers).
-/

namespace WebsiteGraph

abbrev Chars := List Char

/-! ## CPython `urllib.parse` model -/

/-- `_WHATWG_C0_CONTROL_OR_SPACE` membership: code points `0x00`–`0x20`. -/
def isC0OrSpace (c : Char) : Bool := c.toNat ≤ 0x20

/-- `_UNSAFE_URL_BYTES_TO_REMOVE` membership: tab, CR, LF. -/
def isUnsafeByte (c : Char) : Bool := c == '\t' || c == '\r' || c == '\n'

/-- The cleanup `urlsplit` applies to its `url` argument: `lstrip` of C0
controls and space, then removal of every tab/CR/LF. -/
def cleanUrl (l : Chars) : Chars :=
  (l.dropWhile isC0OrSpace).filter (fun c => !isUnsafeByte c)

/-- The cleanup `urlsplit` applies to its default-`scheme` argument:
`strip` (both ends) of C0 controls and space, then tab/CR/LF removal. -/
def cleanScheme (l : Chars) : Chars :=
  ((((l.dropWhile isC0OrSpace).reverse).dropWhile isC0OrSpace).reverse).filter
    (fun c => !isUnsafeByte c)

/-- Membership in `scheme_chars` (letters, digits, `+`, `-`, `.`). -/
def isSchemeChar (c : Char) : Bool := c.isAlphanum || c == '+' || c == '-' || c == '.'

/-- The scheme-splitting step of `urlsplit`: if the first `:` sits at a
positive index, the first character is an ASCII letter and everything before
the `:` is a scheme character, the scheme is that prefix lowercased and the
remainder follows the `:`; otherwise the default scheme is kept and the url
is left whole. -/
def splitScheme (dflt : Chars) (l : Chars) : Chars × Chars :=
  if (l.takeWhile (fun c => c != ':')).length ≠ 0 ∧
      (l.takeWhile (fun c => c != ':')).length ≠ l.length ∧
      (l.headD '0').isAlpha ∧
      (l.takeWhile (fun c => c != ':')).all isSchemeChar then
    ((l.takeWhile (fun c => c != ':')).map Char.toLower,
      l.drop ((l.takeWhile (fun c => c != ':')).length + 1))
  else
    (dflt, l)

/-- Delimiters ending the netloc in `_splitnetloc`. -/
def isNetlocDelim (c : Char) : Bool := c == '/' || c == '?' || c == '#'

/-- The netloc-splitting step of `urlsplit` (`if url[:2] == '//'` followed by
`_splitnetloc(url, 2)`): when the (post-scheme) url starts with `//`, the
netloc runs to the first `/`, `?` or `#`; the rest keeps its leading
delimiter. -/
def splitNetloc (l : Chars) : Chars × Chars :=
  if l.take 2 = ['/', '/'] then
    ((l.drop 2).takeWhile (fun c => !isNetlocDelim c),
      (l.drop 2).drop (((l.drop 2).takeWhile (fun c => !isNetlocDelim c)).length))
  else ([], l)

/-- `url.split(sep, 1)` for a single-character separator, with Python's
convention that an absent separator leaves the second component empty. -/
def splitFirst (sep : Char) (l : Chars) : Chars × Chars :=
  (l.takeWhile (fun c => c != sep),
    l.drop ((l.takeWhile (fun c => c != sep)).length + 1))

/-- Result of `urlsplit` (fragment-allowing call, the only form the
repository reaches). -/
structure SplitResult where
  scheme : Chars
  netloc : Chars
  path : Chars
  query : Chars
  fragment : Chars
  deriving DecidableEq, Repr

/-- CPython 3.11 `urlsplit(url, scheme)` with `allow_fragments=True`.
The IPv6-bracket `ValueError` and `_checknetloc` are not modelled. -/
def urlsplitC (url dflt : Chars) : SplitResult :=
  let s1 := splitScheme (cleanScheme dflt) (cleanUrl url)
  let s2 := splitNetloc s1.2
  let s3 := splitFirst '#' s2.2
  let s4 := splitFirst '?' s3.1
  ⟨s1.1, s2.1, s4.1, s4.2, s3.2⟩

/-- `uses_relative` from `urllib.parse`. -/
def uses_relative : List Chars :=
  ["", "ftp", "http", "gopher", "nntp", "imap", "wais", "file", "https",
   "shttp", "mms", "prospero", "rtsp", "rtsps", "rtspu", "sftp", "svn",
   "svn+ssh", "ws", "wss"].map String.data

/-- `uses_netloc` from `urllib.parse`. -/
def uses_netloc : List Chars :=
  ["", "ftp", "http", "gopher", "nntp", "telnet", "imap", "wais", "file",
   "mms", "https", "shttp", "snews", "prospero", "rtsp", "rtsps", "rtspu",
   "rsync", "svn", "svn+ssh", "sftp", "nfs", "git", "git+ssh", "ws",
   "wss"].map String.data

/-- `uses_params` from `urllib.parse`. -/
def uses_params : List Chars :=
  ["", "ftp", "hdl", "prospero", "http", "imap", "https", "shttp", "rtsp",
   "rtsps", "rtspu", "sip", "sips", "mms", "sftp", "tel"].map String.data

/-- `_splitparams(url)`: split `;params` off the path, searching for the `;`
only after the last `/` when the path contains one.  (Its caller `urlparse`
only invokes it when the path contains a `;`.) -/
def pySplitparams (path : Chars) : Chars × Chars :=
  if path.contains '/' then
    let afterSlash := (path.reverse.takeWhile (fun c => c != '/')).reverse
    if afterSlash.contains ';' then
      let pre := afterSlash.takeWhile (fun c => c != ';')
      (path.take (path.length - afterSlash.length + pre.length),
       afterSlash.drop (pre.length + 1))
    else (path, [])
  else
    let pre := path.takeWhile (fun c => c != ';')
    (pre, path.drop (pre.length + 1))

/-- Result of `urlparse`. -/
structure ParseResult where
  scheme : Chars
  netloc : Chars
  path : Chars
  params : Chars
  query : Chars
  fragment : Chars
  deriving DecidableEq, Repr

/-- CPython 3.11 `urlparse(url, scheme)` with `allow_fragments=True`. -/
def urlparseC (url dflt : Chars) : ParseResult :=
  let s := urlsplitC url dflt
  if s.scheme ∈ uses_params ∧ s.path.contains ';' then
    let (p, params) := pySplitparams s.path
    ⟨s.scheme, s.netloc, p, params, s.query, s.fragment⟩
  else
    ⟨s.scheme, s.netloc, s.path, [], s.query, s.fragment⟩

/-- CPython 3.11 `urlunsplit`. -/
def urlunsplitC (c : SplitResult) : Chars :=
  let url := c.path
  let url :=
    if c.netloc ≠ [] ∨ (c.scheme ≠ [] ∧ c.scheme ∈ uses_netloc ∧ url.take 2 ≠ ['/', '/'])
    then '/' :: '/' :: c.netloc ++
      (if url ≠ [] ∧ url.take 1 ≠ ['/'] then '/' :: url else url)
    else url
  let url := if c.scheme ≠ [] then c.scheme ++ ':' :: url else url
  let url := if c.query ≠ [] then url ++ '?' :: c.query else url
  if c.fragment ≠ [] then url ++ '#' :: c.fragment else url

/-- CPython 3.11 `urlunparse`. -/
def urlunparseC (p : ParseResult) : Chars :=
  urlunsplitC ⟨p.scheme, p.netloc,
    (if p.params ≠ [] then p.path ++ ';' :: p.params else p.path),
    p.query, p.fragment⟩

/-- Python `str.split('/')`. -/
def splitOnSlash : Chars → List Chars
  | [] => [[]]
  | c :: rest =>
    let r := splitOnSlash rest
    if c = '/' then [] :: r
    else (c :: r.headD []) :: r.tail

/-- The dot-segment resolution loop of `urljoin` (`..` pops, `.` is skipped,
popping an empty stack is ignored). -/
def resolveSegs : List Chars → List Chars → List Chars
  | [], acc => acc
  | seg :: rest, acc =>
    if seg = ['.', '.'] then resolveSegs rest acc.dropLast
    else if seg = ['.'] then resolveSegs rest acc
    else resolveSegs rest (acc ++ [seg])

/-- `segments[1:-1] = filter(None, segments[1:-1])`: drop empty segments,
keeping the first and last elements. -/
def filterMiddle : List Chars → List Chars
  | [] => []
  | [a] => [a]
  | a :: rest =>
    match rest.reverse with
    | [] => [a]
    | lastSeg :: midRev =>
      a :: ((midRev.reverse.filter (fun s => s ≠ [])) ++ [lastSeg])

/-- CPython 3.11 `urljoin(base, url)` (`allow_fragments=True`). -/
def urljoinC (base url : Chars) : Chars :=
  if base = [] then url
  else if url = [] then base
  else
    let b := urlparseC base []
    let r := urlparseC url b.scheme
    if r.scheme ≠ b.scheme ∨ r.scheme ∉ uses_relative then url
    else if r.scheme ∈ uses_netloc ∧ r.netloc ≠ [] then urlunparseC r
    else
      let netloc := if r.scheme ∈ uses_netloc then b.netloc else r.netloc
      if r.path = [] ∧ r.params = [] then
        let query := if r.query = [] then b.query else r.query
        urlunparseC ⟨r.scheme, netloc, b.path, b.params, query, r.fragment⟩
      else
        let baseParts0 := splitOnSlash b.path
        let baseParts :=
          if baseParts0.getLast? ≠ some [] then baseParts0.dropLast else baseParts0
        let segments :=
          if r.path.take 1 = ['/'] then splitOnSlash r.path
          else filterMiddle (baseParts ++ splitOnSlash r.path)
        let resolved := resolveSegs segments []
        let resolved :=
          if segments.getLast? = some ['.'] ∨ segments.getLast? = some ['.', '.']
          then resolved ++ [[]] else resolved
        let joined := List.intercalate ['/'] resolved
        let joined := if joined = [] then ['/'] else joined
        urlunparseC ⟨r.scheme, netloc, joined, r.params, r.query, r.fragment⟩

/-! ## `website_graph.py`: URL helpers -/

/-- Python `s.rstrip('/')`. -/
def pyRstripSlashes (l : Chars) : Chars :=
  (l.reverse.dropWhile (fun c => c == '/')).reverse

/-- `urljoin` at the `String` boundary. -/
def urljoin (base url : String) : String := ⟨urljoinC base.data url.data⟩

/-- `normalize_url(base, link)` from `website_graph.py`: resolve
`link.split('#')[0]` against `base` and strip trailing `/` characters. -/
def normalize_url (base link : String) : String :=
  ⟨pyRstripSlashes (urljoinC base.data (link.data.takeWhile (fun c => c != '#')))⟩

/-- `is_valid_scheme(url)` from `website_graph.py`:
`urlparse(url).scheme in ("http", "https")`. -/
def is_valid_scheme (url : String) : Bool :=
  (urlparseC url.data []).scheme == "http".data ||
    (urlparseC url.data []).scheme == "https".data

/-- `urlparse(url).netloc`, as used for the seed domain and the same-domain
filter in `build_website_graph`. -/
def netlocOf (url : String) : Chars := (urlparseC url.data []).netloc

/-! ## networkx model

Python exceptions reachable from the embedded functions.  In networkx,
`NetworkXPointlessConcept` and `NetworkXError` are sibling subclasses of
`NetworkXException`; an `except nx.NetworkXError:` clause therefore does not
catch `NetworkXPointlessConcept`. -/
inductive PyErr where
  | pointlessConcept
  | networkXError
  | zeroDivision
  deriving DecidableEq, Repr

instance {ε α : Type _} [DecidableEq ε] [DecidableEq α] :
    DecidableEq (Except ε α)
  | Except.error a, Except.error b =>
    decidable_of_iff (a = b) ⟨fun h => h ▸ rfl, fun h => by injection h⟩
  | Except.error _, Except.ok _ => isFalse (fun h => Except.noConfusion h)
  | Except.ok _, Except.error _ => isFalse (fun h => Except.noConfusion h)
  | Except.ok a, Except.ok b =>
    decidable_of_iff (a = b) ⟨fun h => h ▸ rfl, fun h => by injection h⟩

/-- `nx.DiGraph`: insertion-ordered node list and directed edge list, each
duplicate-free (re-adding is a no-op, mirroring dict semantics). -/
structure DiGraph where
  nodes : List String
  edges : List (String × String)
  deriving DecidableEq, Repr

/-- `nx.DiGraph()`. -/
def DiGraph.empty : DiGraph := ⟨[], []⟩

/-- `G.add_node(u)`. -/
def DiGraph.add_node (G : DiGraph) (u : String) : DiGraph :=
  if u ∈ G.nodes then G else ⟨G.nodes ++ [u], G.edges⟩

/-- `G.add_edge(u, v)`: both endpoints are registered as nodes, then the
directed edge is stored once. -/
def DiGraph.add_edge (G : DiGraph) (u v : String) : DiGraph :=
  let G' := (G.add_node u).add_node v
  if (u, v) ∈ G'.edges then G' else ⟨G'.nodes, G'.edges ++ [(u, v)]⟩

/-- Total degree (in-degree + out-degree) of a node of a `DiGraph`, as
reported by `G.degree()`; a self-loop contributes 2. -/
def DiGraph.degree (G : DiGraph) (u : String) : Nat :=
  (G.edges.filter (fun e => e.1 == u)).length +
    (G.edges.filter (fun e => e.2 == u)).length

/-- One breadth step of reachability over a fixed edge list, restricted to
the node list. -/
def reachStep (edges : List (String × String)) (nodes S : List String) : List String :=
  nodes.filter (fun v => S.contains v || edges.any (fun e => S.contains e.1 && e.2 == v))

/-- Directed reachability set of `u` (iterating one breadth step
`G.nodes.length` times reaches a fixed point). -/
def DiGraph.reachSet (G : DiGraph) (u : String) : List String :=
  (reachStep G.edges G.nodes)^[G.nodes.length] [u]

/-- The edge list with every edge also reversed, for weak connectivity. -/
def DiGraph.symEdges (G : DiGraph) : List (String × String) :=
  G.edges ++ G.edges.map (fun e => (e.2, e.1))

/-- Undirected (weak) reachability set of `u`. -/
def DiGraph.weakReachSet (G : DiGraph) (u : String) : List String :=
  (reachStep G.symEdges G.nodes)^[G.nodes.length] [u]

/-- `nx.is_strongly_connected(G)`: raises `NetworkXPointlessConcept` on the
null graph, else decides whether every node reaches every node. -/
def is_strongly_connected (G : DiGraph) : Except PyErr Bool :=
  if G.nodes.length = 0 then .error .pointlessConcept
  else .ok (G.nodes.all (fun u => G.nodes.all (fun v => (G.reachSet u).contains v)))

/-- `nx.is_weakly_connected(G)`: raises `NetworkXPointlessConcept` on the
null graph, else decides connectivity of the undirected projection. -/
def is_weakly_connected (G : DiGraph) : Except PyErr Bool :=
  if G.nodes.length = 0 then .error .pointlessConcept
  else .ok (G.nodes.all (fun u => G.nodes.all (fun v => (G.weakReachSet u).contains v)))

/-- `classify_graph` from `website_graph.py`.  Every graph this module builds
is an `nx.DiGraph`, so `G.is_directed()` is `True` and only the directed
branch is reachable; the undirected `else` branch (which holds the
`"Empty Graph"` label) is dead code for this type and is omitted from the
embedding.  The `try`/`except nx.NetworkXError` wrapper is modelled exactly:
only `networkXError` is converted into the fallback label, while
`pointlessConcept` (what networkx actually raises on a null graph)
propagates. -/
def classify_graph (G : DiGraph) : Except PyErr String :=
  match is_strongly_connected G with
  | .error e =>
    if e = .networkXError then .ok "Directed Graph (connectivity not determined)"
    else .error e
  | .ok true => .ok "Strongly Connected Directed Graph"
  | .ok false =>
    match is_weakly_connected G with
    | .error e =>
      if e = .networkXError then .ok "Directed Graph (connectivity not determined)"
      else .error e
    | .ok true => .ok "Weakly Connected Directed Graph"
    | .ok false => .ok "Disconnected Directed Graph"

/-- The dictionary `graph_stats` returns (Python float division modelled
exactly over `ℚ`). -/
structure GraphStats where
  classification : String
  nodes : Nat
  edges : Nat
  average_degree : ℚ
  deriving DecidableEq, Repr

/-- `graph_stats` from `website_graph.py`: `n`, `m` and the zero-guarded
`avg_deg` are computed first; the subsequent `classify_graph(G)` call may
raise, and that exception propagates out of `graph_stats`. -/
def graph_stats (G : DiGraph) : Except PyErr GraphStats :=
  let n := G.nodes.length
  let m := G.edges.length
  let avg_deg : ℚ := if n ≠ 0 then ((G.nodes.map G.degree).sum : ℚ) / (n : ℚ) else 0
  match classify_graph G with
  | .error e => .error e
  | .ok c => .ok ⟨c, n, m, avg_deg⟩

end WebsiteGraph

namespace WebDiver

open WebsiteGraph (PyErr)

/-- `nx.Graph` (undirected), as built by `web_diver.py`: node list plus one
stored record per undirected edge. -/
structure UGraph where
  nodes : List String
  edges : List (String × String)
  deriving DecidableEq, Repr

/-- `nx.Graph()`. -/
def UGraph.empty : UGraph := ⟨[], []⟩

/-- Degree in an undirected graph (a self-loop contributes 2). -/
def UGraph.degree (G : UGraph) (u : String) : Nat :=
  (G.edges.filter (fun e => e.1 == u)).length +
    (G.edges.filter (fun e => e.2 == u)).length

/-- Undirected edges, made symmetric for reachability. -/
def UGraph.symEdges (G : UGraph) : List (String × String) :=
  G.edges ++ G.edges.map (fun e => (e.2, e.1))

/-- Reachability set of `u` in an undirected graph. -/
def UGraph.reachSet (G : UGraph) (u : String) : List String :=
  (WebsiteGraph.reachStep G.symEdges G.nodes)^[G.nodes.length] [u]

/-- `nx.is_connected(G)`: raises `NetworkXPointlessConcept` on the null
graph. -/
def is_connected (G : UGraph) : Except PyErr Bool :=
  if G.nodes.length = 0 then .error .pointlessConcept
  else .ok (G.nodes.all (fun u => G.nodes.all (fun v => (G.reachSet u).contains v)))

/-- `nx.is_bipartite(G)`: decides 2-colorability (never raises; `True` on
the null graph).  Modelled extensionally by searching for a valid side of a
bipartition among node sublists, which agrees with networkx's BFS
2-coloring on every finite graph. -/
def is_bipartite (G : UGraph) : Bool :=
  G.nodes.sublists.any (fun S =>
    G.edges.all (fun e => S.contains e.1 != S.contains e.2))

/-- One representative node per connected component. -/
def UGraph.componentReps (G : UGraph) : List String :=
  G.nodes.foldl
    (fun acc u => if acc.any (fun r => (G.reachSet r).contains u) then acc
                  else acc ++ [u]) []

/-- `nx.is_tree(G)`: raises `NetworkXPointlessConcept` on the null graph;
else `True` iff the edge count is `n - 1` and the graph is connected. -/
def is_tree (G : UGraph) : Except PyErr Bool :=
  if G.nodes.length = 0 then .error .pointlessConcept
  else .ok ((G.edges.length + 1 = G.nodes.length) &&
    (G.nodes.all (fun u => G.nodes.all (fun v => (G.reachSet u).contains v))))

/-- `len(nx.cycle_basis(G)) > 0`: the cycle space of an undirected graph has
dimension `m - n + c`, so the basis is nonempty iff `m + c > n`. -/
def has_cycle (G : UGraph) : Bool :=
  G.nodes.length < G.edges.length + (UGraph.componentReps G).length

/-- `classify_graph` from `web_diver.py`.  The five classification locals
are evaluated in source order before any branching, so the
`nx.is_connected` call raises first on an empty graph; `nx.is_directed(G)`
is `False` for `nx.Graph`, so the directed branch is dead for this type. -/
def classify_graph (G : UGraph) : Except PyErr String := do
  let conn ← is_connected G
  let bip := is_bipartite G
  let tree ← is_tree G
  let cyc := has_cycle G
  if conn then
    if bip then pure "Bipartite Connected Graph"
    else if tree then pure "Tree"
    else pure "Connected Forest Graph"
  else if cyc then pure "Cyclic Graph"
  else pure "Acyclical Graph"

/-- The classification and metric values `graph_stats` of `web_diver.py`
produces (the metric table rows, keyed structurally). -/
structure WdStats where
  classification : String
  nodes : Nat
  edges : Nat
  average_degree : ℚ
  deriving DecidableEq, Repr

/-- `graph_stats` from `web_diver.py`: the classification runs first (its
exceptions propagate), and the average-degree entry divides by
`len(G.nodes)` with no zero guard, so an empty graph would raise
`ZeroDivisionError` there. -/
def graph_stats (G : UGraph) : Except PyErr WdStats :=
  match classify_graph G with
  | .error e => .error e
  | .ok c =>
    if G.nodes.length = 0 then .error .zeroDivision
    else .ok ⟨c, G.nodes.length, G.edges.length,
      ((G.nodes.map G.degree).sum : ℚ) / (G.nodes.length : ℚ)⟩

end WebDiver

namespace WebsiteGraph

/-! ## The crawl loop of `build_website_graph` -/

/-- Python whitespace stripped by `str.strip()` (ASCII part; the repository
only meets ASCII hrefs). -/
def isPySpace (c : Char) : Bool :=
  c == ' ' || c == '\t' || c == '\n' || c == '\r' || c == '\x0b' || c == '\x0c'

/-- `href.strip()`. -/
def pyStripWs (s : String) : String :=
  ⟨((s.data.dropWhile isPySpace).reverse.dropWhile isPySpace).reverse⟩

/-- `href.startswith(('mailto:', 'javascript:', 'tel:'))`. -/
def startsWithAny (s : String) (ps : List String) : Bool :=
  ps.any (fun p => p.data.isPrefixOf s.data)

/-- `extract_links(url)` from `website_graph.py`, against a fetch capability:
`fetch url = none` models the `requests` failure path (the function returns
`[]`); `some hrefs` models a fetched page whose anchor `href` attributes are
`hrefs` in document order.  Each href is stripped, `mailto:`/`javascript:`/
`tel:` links are skipped, and the rest are normalized against the page URL. -/
def extract_links (fetch : String → Option (List String)) (url : String) :
    List String :=
  match fetch url with
  | none => []
  | some hrefs =>
    hrefs.filterMap (fun rawHref =>
      let href := pyStripWs rawHref
      if startsWithAny href ["mailto:", "javascript:", "tel:"] then none
      else some (normalize_url url href))

/-- The mutable state of the crawl loop.  `graph`, `seen`, `queue` and
`pages_crawled` are the Python locals `G`, `seen`, `q`, `pages_crawled`.
`enqueuedLog` and `discarded` are history variables that do not influence
the computation: `enqueuedLog` records every entry ever appended to the
frontier (the seed included), `discarded` counts dequeues that hit the
`depth > max_depth` discard branch. -/
structure CrawlState where
  graph : DiGraph
  seen : List String
  queue : List (String × Nat)
  pages_crawled : Nat
  enqueuedLog : List (String × Nat)
  discarded : Nat
  deriving DecidableEq, Repr

/-- Dequeue frontier entries until one passes the two `continue` guards
(`depth > max_depth`, `not allowed_by_robots(url)`); returns the first entry
that will actually be crawled together with the remaining queue, or `none`
when the queue runs dry, plus the updated discard counter. -/
def drainQueue (robots : String → Bool) (max_depth : Int) :
    List (String × Nat) → Nat → Option ((String × Nat) × List (String × Nat)) × Nat
  | [], discarded => (none, discarded)
  | (url, depth) :: rest, discarded =>
    if (depth : Int) > max_depth then
      drainQueue robots max_depth rest (discarded + 1)
    else if !(robots url) then
      drainQueue robots max_depth rest discarded
    else
      (some ((url, depth), rest), discarded)

/-- The `for link in links` body of `build_website_graph`: skip links whose
scheme is not http/https, skip off-domain links under `same_domain`, record
the edge, and enqueue the target if it is unseen, within the depth budget,
and the page budget is not exhausted. -/
def processLinks (same_domain : Bool) (domain : Chars) (max_pages max_depth : Int)
    (url : String) (depth : Nat) : List String → CrawlState → CrawlState
  | [], st => st
  | link :: rest, st =>
    if !(is_valid_scheme link) then
      processLinks same_domain domain max_pages max_depth url depth rest st
    else if same_domain ∧ netlocOf link ≠ domain then
      processLinks same_domain domain max_pages max_depth url depth rest st
    else
      let st := { st with graph := st.graph.add_edge url link }
      let st :=
        if link ∉ st.seen ∧ ((depth : Int) + 1 ≤ max_depth) ∧
            ((st.pages_crawled : Int) < max_pages) then
          { st with seen := st.seen ++ [link],
                    queue := st.queue ++ [(link, depth + 1)],
                    enqueuedLog := st.enqueuedLog ++ [(link, depth + 1)] }
        else st
      processLinks same_domain domain max_pages max_depth url depth rest st

/-- The `while q and pages_crawled < max_pages` loop.  Each iteration either
discards queue entries (the `continue` branches, folded into `drainQueue`)
or crawls one page.  `fuel` is the number of page-crawls the budget still
allows: it starts at `max_pages.toNat` and decreases exactly when
`pages_crawled` increases, so `fuel = 0` is equivalent to the Python guard
`pages_crawled < max_pages` failing.  `time.sleep(delay)` is a pure delay
with no effect on the state and is not modelled. -/
def crawlLoop (fetch : String → Option (List String)) (robots : String → Bool)
    (same_domain : Bool) (domain : Chars) (max_pages max_depth : Int) :
    Nat → CrawlState → CrawlState
  | 0, st => st
  | fuel + 1, st =>
    match drainQueue robots max_depth st.queue st.discarded with
    | (none, d) => { st with queue := [], discarded := d }
    | (some ((url, depth), rest), d) =>
      let st := { st with queue := rest, discarded := d }
      let links := extract_links fetch url
      let st := { st with pages_crawled := st.pages_crawled + 1,
                          graph := st.graph.add_node url }
      let st := processLinks same_domain domain max_pages max_depth url depth links st
      crawlLoop fetch robots same_domain domain max_pages max_depth fuel st

/-- `build_website_graph(start_url, max_pages, max_depth, same_domain)`,
returning the full final loop state (the Python function returns `G`; the
other fields are exposed for the invariants).  The seed is normalized, its
netloc becomes `domain`, the seed is marked seen and enqueued at depth 0,
and the loop runs.  `max_pages` and `max_depth` are Python ints, hence
`Int`. -/
def crawlFinal (fetch : String → Option (List String)) (robots : String → Bool)
    (start_url : String) (max_pages max_depth : Int) (same_domain : Bool) :
    CrawlState :=
  let s := normalize_url start_url ""
  let domain := netlocOf s
  crawlLoop fetch robots same_domain domain max_pages max_depth max_pages.toNat
    ⟨DiGraph.empty, [s], [(s, 0)], 0, [(s, 0)], 0⟩

/-- The graph returned by `build_website_graph`. -/
def build_website_graph (fetch : String → Option (List String))
    (robots : String → Bool) (start_url : String) (max_pages max_depth : Int)
    (same_domain : Bool) : DiGraph :=
  (crawlFinal fetch robots start_url max_pages max_depth same_domain).graph

/-! ## Concrete capability fixtures (for counterexamples and witnesses) -/

/-- A robots capability that allows every URL. -/
def robotsAlways : String → Bool := fun _ => true

/-- A page layout where the seed links to `/b` and `/c` and nothing else is
fetchable. -/
def fetchTwoLinks : String → Option (List String) := fun u =>
  if u = "http://a.com" then some ["/b", "/c"] else none

/-- The linear-chain layout: the seed links to `/b`, `/b` links to `/c`, and
`/c` is not fetchable. -/
def fetchChain : String → Option (List String) := fun u =>
  if u = "http://a.com" then some ["/b"]
  else if u = "http://a.com/b" then some ["/c"]
  else none

/-- A fetch capability that fails on every URL. -/
def fetchNone : String → Option (List String) := fun _ => none

/-! ## Invariant predicates used by the crawl-loop proofs -/

/-- Seen-set/enqueue-log invariant: no URL was ever enqueued twice, and the
seen set contains exactly the URLs ever enqueued. -/
def SeenLogInv (st : CrawlState) : Prop :=
  (st.enqueuedLog.map Prod.fst).Nodup ∧
    ∀ x, x ∈ st.seen ↔ x ∈ st.enqueuedLog.map Prod.fst

/-- Depth invariant: every entry ever enqueued (hence every queue entry) has
depth within the depth budget, and the dequeue-time discard branch has never
fired. -/
def DepthInv (max_depth : Int) (st : CrawlState) : Prop :=
  (∀ e ∈ st.queue, (e.2 : Int) ≤ max_depth) ∧
    (∀ e ∈ st.enqueuedLog, (e.2 : Int) ≤ max_depth) ∧
    st.discarded = 0

/-- Same-domain invariant: every edge target's host is the crawl domain. -/
def DomainInv (dom : Chars) (st : CrawlState) : Prop :=
  ∀ e ∈ st.graph.edges, netlocOf e.2 = dom

end WebsiteGraph

namespace WebsiteGraph

/-! ## General lemmas about `pyRstripSlashes` -/

theorem dropWhile_head_false {α : Type _} (p : α → Bool) (l : List α) {c : α}
    {t : List α} (h : l.dropWhile p = c :: t) : p c = false := by
  induction l with
  | nil => simp at h
  | cons a l ih =>
    rw [List.dropWhile_cons] at h
    by_cases hp : p a
    · rw [if_pos hp] at h
      exact ih h
    · rw [if_neg hp] at h
      obtain ⟨rfl, -⟩ := List.cons.inj h
      simpa using hp

theorem pyRstrip_getLast? (l : Chars) :
    (pyRstripSlashes l).getLast? ≠ some '/' := by
  unfold pyRstripSlashes
  rw [List.getLast?_reverse]
  cases h : List.dropWhile (fun c => c == '/') l.reverse with
  | nil => simp
  | cons c t =>
    have hp := dropWhile_head_false (fun c => c == '/') l.reverse h
    simp at hp
    simp [hp]

theorem pyRstrip_eq_append (l : Chars) :
    ∃ m, pyRstripSlashes l ++ List.replicate m '/' = l := by
  refine ⟨(l.reverse.takeWhile (fun c => c == '/')).length, ?_⟩
  unfold pyRstripSlashes
  conv_rhs =>
    rw [← l.reverse_reverse,
      ← List.takeWhile_append_dropWhile (fun c => c == '/') l.reverse]
  rw [List.reverse_append]
  congr 1
  rw [eq_comm, List.eq_replicate_iff]
  refine ⟨by simp, ?_⟩
  intro b hb
  rw [List.mem_reverse] at hb
  simpa using List.mem_takeWhile_imp hb

theorem pyRstrip_of_getLast? {l : Chars} (h : l.getLast? ≠ some '/') :
    pyRstripSlashes l = l := by
  unfold pyRstripSlashes
  cases hr : l.reverse with
  | nil =>
    have : l = [] := by simpa using congrArg List.reverse hr
    simp [this]
  | cons c t =>
    have hc : c ≠ '/' := by
      intro hc
      apply h
      rw [← l.reverse_reverse, hr, hc]
      simp
    rw [List.dropWhile_cons]
    simp only [hc, beq_iff_eq, if_false]
    rw [← hr, l.reverse_reverse]

theorem pyRstrip_idem (l : Chars) :
    pyRstripSlashes (pyRstripSlashes l) = pyRstripSlashes l :=
  pyRstrip_of_getLast? (pyRstrip_getLast? l)

theorem pyRstrip_append {a : Chars} (b : Chars) {c : Char}
    (h : a.getLast? = some c) (hc : c ≠ '/') :
    pyRstripSlashes (a ++ b) = a ++ pyRstripSlashes b := by
  unfold pyRstripSlashes
  rw [List.reverse_append, List.dropWhile_append]
  have ha : List.dropWhile (fun x => x == '/') a.reverse = a.reverse := by
    cases hr : a.reverse with
    | nil => simp
    | cons x t =>
      have hx : x = c := by
        have := congrArg List.head? hr
        rw [List.head?_reverse, h] at this
        simpa using this.symm
      rw [List.dropWhile_cons]
      simp [hx, hc]
  split
  · next hemp =>
    rw [List.isEmpty_iff] at hemp
    simp [hemp, ha]
  · next hemp =>
    rw [List.reverse_append, List.reverse_reverse]

theorem pyRstrip_ne_nil {l : Chars} {c : Char} (hmem : c ∈ l) (hc : c ≠ '/') :
    pyRstripSlashes l ≠ [] := by
  intro he
  unfold pyRstripSlashes at he
  rw [List.reverse_eq_nil_iff, List.dropWhile_eq_nil_iff] at he
  exact hc (by simpa using he c (by simpa using hmem))

theorem pyRstrip_subset {l : Chars} {c : Char}
    (h : c ∈ pyRstripSlashes l) : c ∈ l := by
  unfold pyRstripSlashes at h
  rw [List.mem_reverse] at h
  have := (List.dropWhile_sublist (l := l.reverse) (fun x => x == '/')).subset h
  simpa using this

/-! ## C2 -/

/-- C2: the claim says `classify` returns the `EMPTY` label on the empty
graph and never fails.  The code disagrees: crawl results are `nx.DiGraph`s,
so `classify_graph` takes the directed branch, `nx.is_strongly_connected`
raises `NetworkXPointlessConcept` on the null graph, and the
`except nx.NetworkXError` clause does not catch that sibling class — the
call raises instead of returning a label (the `"Empty Graph"` check lives
only in the unreachable undirected branch). -/
theorem classify_graph_empty_raises_pointless_concept :
    classify_graph DiGraph.empty = Except.error PyErr.pointlessConcept := by
  rfl

/-! ## C6 -/

/-- C6: on the empty graph, `graph_stats` of `website_graph.py` computes its
zero-guarded average degree but then calls `classify_graph`, which raises
`NetworkXPointlessConcept`, so `stats` never returns; the `web_diver.py`
variant raises the same way from its `nx.is_connected` call (its unguarded
division would raise `ZeroDivisionError` had classification not raised
first).  On the non-empty linear-chain crawl the average degree is the sum
of total degrees divided by the node count, `4/3`. -/
theorem graph_stats_empty_raises_and_average_degree :
    graph_stats DiGraph.empty = Except.error PyErr.pointlessConcept ∧
    WebDiver.graph_stats WebDiver.UGraph.empty = Except.error PyErr.pointlessConcept ∧
    graph_stats (build_website_graph fetchChain robotsAlways "http://a.com" 10 2 true) =
      Except.ok ⟨"Weakly Connected Directed Graph", 3, 2, (4 : ℚ) / 3⟩ := by
  refine ⟨rfl, rfl, ?_⟩
  rfl

/-! ## C9 -/

/-- C9: the crawl is deterministic: two runs from the same seed and budgets
over fetch/parse/robots capabilities that return the same data produce the
same graph (node and edge lists) and the same classification label. -/
theorem crawl_deterministic (start_url : String) (mp md : Int) (sd : Bool)
    (fetch₁ fetch₂ : String → Option (List String))
    (robots₁ robots₂ : String → Bool)
    (hf : ∀ u, fetch₁ u = fetch₂ u) (hr : ∀ u, robots₁ u = robots₂ u) :
    build_website_graph fetch₁ robots₁ start_url mp md sd =
      build_website_graph fetch₂ robots₂ start_url mp md sd ∧
    classify_graph (build_website_graph fetch₁ robots₁ start_url mp md sd) =
      classify_graph (build_website_graph fetch₂ robots₂ start_url mp md sd) := by
  obtain rfl : fetch₁ = fetch₂ := funext hf
  obtain rfl : robots₁ = robots₂ := funext hr
  exact ⟨rfl, rfl⟩

/-- Witness for C9 at the linear-chain capabilities. -/
theorem crawl_deterministic_witness :
    (∀ u, fetchChain u = fetchChain u) ∧ (∀ u, robotsAlways u = robotsAlways u) ∧
    (build_website_graph fetchChain robotsAlways "http://a.com" 10 2 true =
      build_website_graph fetchChain robotsAlways "http://a.com" 10 2 true ∧
    classify_graph (build_website_graph fetchChain robotsAlways "http://a.com" 10 2 true) =
      classify_graph (build_website_graph fetchChain robotsAlways "http://a.com" 10 2 true)) :=
  ⟨fun _ => rfl, fun _ => rfl,
    crawl_deterministic "http://a.com" 10 2 true fetchChain fetchChain
      robotsAlways robotsAlways (fun _ => rfl) (fun _ => rfl)⟩

/-! ## C5 -/

/-- C5 counterexample: the claim says exactly one trailing `/` is stripped
(several trailing slashes keep all but one).  For a resolved URL ending in
`//`, stripping one slash would give `http://a.com/x/`, but `normalize_url`
strips the whole run and returns `http://a.com/x`. -/
theorem normalize_url_single_slash_cex :
    (urljoin "http://a.com" "http://a.com/x//").data.getLast? = some '/' ∧
    normalize_url "http://a.com" "http://a.com/x//" ≠
      (urljoin "http://a.com" "http://a.com/x//").dropRight 1 ∧
    normalize_url "http://a.com" "http://a.com/x//" = "http://a.com/x" := by
  refine ⟨rfl, ?_, rfl⟩
  decide

/-- C5 amended: `normalize_url` strips the entire maximal run of trailing
slashes from the resolved URL: the result never ends in `/`, and appending
some number of `/` characters to it recovers the resolved URL exactly. -/
theorem normalize_url_trailing_slash_spec (base link : String) :
    (normalize_url base link).data.getLast? ≠ some '/' ∧
    ∃ m, (normalize_url base link).data ++ List.replicate m '/' =
      urljoinC base.data (link.data.takeWhile (fun c => c != '#')) := by
  constructor
  · exact pyRstrip_getLast? _
  · exact pyRstrip_eq_append _

end WebsiteGraph

namespace WebsiteGraph

/-! ## Crawl-loop lemmas -/

theorem crawlFinal_def (fetch : String → Option (List String))
    (robots : String → Bool) (start_url : String) (mp md : Int) (sd : Bool) :
    crawlFinal fetch robots start_url mp md sd =
      crawlLoop fetch robots sd (netlocOf (normalize_url start_url "")) mp md
        mp.toNat
        ⟨DiGraph.empty, [normalize_url start_url ""],
          [(normalize_url start_url "", 0)], 0,
          [(normalize_url start_url "", 0)], 0⟩ := rfl

theorem processLinks_pages (sd : Bool) (dom : Chars) (mp md : Int)
    (url : String) (depth : Nat) : ∀ (links : List String) (st : CrawlState),
    (processLinks sd dom mp md url depth links st).pages_crawled =
      st.pages_crawled := by
  intro links
  induction links with
  | nil => intro st; rfl
  | cons link rest ih =>
    intro st
    rw [processLinks]
    split
    · exact ih st
    split
    · exact ih st
    rw [ih]
    split <;> rfl

theorem crawlLoop_pages_le (fetch : String → Option (List String))
    (robots : String → Bool) (sd : Bool) (dom : Chars) (mp md : Int) :
    ∀ (fuel : Nat) (st : CrawlState),
    (crawlLoop fetch robots sd dom mp md fuel st).pages_crawled ≤
      st.pages_crawled + fuel := by
  intro fuel
  induction fuel with
  | zero => intro st; simp [crawlLoop]
  | succ n ih =>
    intro st
    rw [crawlLoop]
    rcases hdq : drainQueue robots md st.queue st.discarded with ⟨res, d⟩
    cases res with
    | none => dsimp only; omega
    | some e =>
      obtain ⟨⟨url, depth⟩, rest⟩ := e
      dsimp only
      refine le_trans (ih _) ?_
      rw [processLinks_pages]
      dsimp only
      omega

theorem crawlLoop_empty_queue (fetch : String → Option (List String))
    (robots : String → Bool) (sd : Bool) (dom : Chars) (mp md : Int) :
    ∀ (fuel : Nat) (st : CrawlState), st.queue = [] →
    crawlLoop fetch robots sd dom mp md fuel st = st := by
  intro fuel st h
  cases fuel with
  | zero => rfl
  | succ n =>
    rw [crawlLoop, h]
    show ({ st with queue := [], discarded := st.discarded } : CrawlState) = st
    cases st with
    | mk g s q p l d => simp_all

/-! ## C1 -/

/-- C1 counterexample: with `max_pages = 1` the crawl of a seed whose page
links to `/b` and `/c` finishes with 3 nodes — `add_edge` registers the
never-crawled link targets as nodes, so the node count exceeds `maxPages`. -/
theorem node_count_can_exceed_max_pages :
    (build_website_graph fetchTwoLinks robotsAlways "http://a.com" 1 1 true).nodes =
      ["http://a.com", "http://a.com/b", "http://a.com/c"] ∧
    ¬ ((build_website_graph fetchTwoLinks robotsAlways "http://a.com" 1 1
        true).nodes.length ≤ 1) := by
  decide

/-- C1 amended: the budget bounds the number of *crawled pages*: for every
run with `max_pages ≥ 0`, `pages_crawled ≤ max_pages` (node count may exceed
it through un-crawled edge targets). -/
theorem pages_crawled_within_budget (fetch : String → Option (List String))
    (robots : String → Bool) (start_url : String) (mp md : Int) (sd : Bool)
    (h : 0 ≤ mp) :
    ((crawlFinal fetch robots start_url mp md sd).pages_crawled : Int) ≤ mp := by
  have hle := crawlLoop_pages_le fetch robots sd
    (netlocOf (normalize_url start_url "")) mp md mp.toNat
    ⟨DiGraph.empty, [normalize_url start_url ""],
      [(normalize_url start_url "", 0)], 0, [(normalize_url start_url "", 0)], 0⟩
  rw [crawlFinal_def]
  simp only [CrawlState.pages_crawled] at hle
  omega

/-- Witness for C1's amended theorem on the linear-chain run. -/
theorem pages_crawled_within_budget_witness :
    (0 : Int) ≤ 10 ∧
    ((crawlFinal fetchChain robotsAlways "http://a.com" 10 2
      true).pages_crawled : Int) ≤ 10 :=
  ⟨by decide, pages_crawled_within_budget fetchChain robotsAlways "http://a.com"
    10 2 true (by decide)⟩

/-! ## C3 -/

/-- C3 counterexample: the code contains no `InvalidSeedError` and performs
no seed-scheme validation.  With the non-http(s) seed `ftp://x.com` the
crawl does not fail fast: the seed is dequeued, its fetch is attempted (and
fails, contributing zero links), `pages_crawled` becomes 1, and the function
returns a one-node graph instead of raising. -/
theorem invalid_scheme_seed_is_crawled :
    is_valid_scheme "ftp://x.com" = false ∧
    crawlFinal fetchNone robotsAlways "ftp://x.com" 200 2 true =
      ⟨⟨["ftp://x.com"], []⟩, ["ftp://x.com"], [], 1, [("ftp://x.com", 0)], 0⟩ := by
  decide

/-- C3 amended: an invalid-scheme seed is crawled like any other URL and the
crawl returns the partial graph built so far: whenever the seed's fetch
fails and robots allows it (and the budgets permit one page), the result is
the single-node graph containing the normalized seed. -/
theorem invalid_scheme_seed_partial_graph (fetch : String → Option (List String))
    (robots : String → Bool) (seed : String) (mp md : Int) (sd : Bool)
    (hscheme : is_valid_scheme seed = false)
    (hfetch : fetch (normalize_url seed "") = none)
    (hrobots : robots (normalize_url seed "") = true)
    (hmp : 1 ≤ mp) (hmd : 0 ≤ md) :
    build_website_graph fetch robots seed mp md sd =
      ⟨[normalize_url seed ""], []⟩ := by
  obtain ⟨n, hn⟩ : ∃ n, mp.toNat = n + 1 := ⟨mp.toNat - 1, by omega⟩
  rw [build_website_graph, crawlFinal_def, hn, crawlLoop]
  have hd : drainQueue robots md [(normalize_url seed "", 0)] 0 =
      (some ((normalize_url seed "", 0), []), 0) := by
    rw [drainQueue]
    rw [if_neg (by omega : ¬ ((0 : Nat) : Int) > md)]
    rw [if_neg (by simp [hrobots])]
  rw [hd]
  dsimp only
  have he : extract_links fetch (normalize_url seed "") = [] := by
    rw [extract_links, hfetch]
  rw [he]
  rw [crawlLoop_empty_queue]
  · rfl
  · rfl

/-- Witness for C3's amended theorem at the `ftp://x.com` seed. -/
theorem invalid_scheme_seed_partial_graph_witness :
    is_valid_scheme "ftp://x.com" = false ∧
    fetchNone (normalize_url "ftp://x.com" "") = none ∧
    robotsAlways (normalize_url "ftp://x.com" "") = true ∧
    (1 : Int) ≤ 200 ∧ (0 : Int) ≤ 2 ∧
    build_website_graph fetchNone robotsAlways "ftp://x.com" 200 2 true =
      ⟨[normalize_url "ftp://x.com" ""], []⟩ :=
  ⟨by decide, rfl, rfl, by decide, by decide,
    invalid_scheme_seed_partial_graph fetchNone robotsAlways "ftp://x.com" 200 2
      true (by decide) rfl rfl (by decide) (by decide)⟩

/-! ## C8 -/

theorem processLinks_seenLog (sd : Bool) (dom : Chars) (mp md : Int)
    (url : String) (depth : Nat) : ∀ (links : List String) (st : CrawlState),
    SeenLogInv st → SeenLogInv (processLinks sd dom mp md url depth links st) := by
  intro links
  induction links with
  | nil => intro st h; exact h
  | cons link rest ih =>
    intro st h
    rw [processLinks]
    split
    · exact ih st h
    split
    · exact ih st h
    apply ih
    split
    · next hcond =>
      obtain ⟨hnew, -, -⟩ := hcond
      obtain ⟨hnd, hiff⟩ := h
      have hnotlog : link ∉ st.enqueuedLog.map Prod.fst := fun hmem =>
        hnew ((hiff link).mpr hmem)
      constructor
      · rw [List.map_append]
        exact List.Nodup.append hnd (List.nodup_singleton link)
          (by
            intro x hx hx'
            simp at hx'
            subst hx'
            exact hnotlog hx)
      · intro x
        rw [List.map_append]
        simp only [List.mem_append, List.map_cons, List.map_nil,
          List.mem_singleton]
        rw [hiff x]
    · exact h

theorem crawlLoop_seenLog (fetch : String → Option (List String))
    (robots : String → Bool) (sd : Bool) (dom : Chars) (mp md : Int) :
    ∀ (fuel : Nat) (st : CrawlState),
    SeenLogInv st → SeenLogInv (crawlLoop fetch robots sd dom mp md fuel st) := by
  intro fuel
  induction fuel with
  | zero => intro st h; exact h
  | succ n ih =>
    intro st h
    rw [crawlLoop]
    rcases hdq : drainQueue robots md st.queue st.discarded with ⟨res, d⟩
    cases res with
    | none => exact h
    | some e =>
      obtain ⟨⟨url, depth⟩, rest⟩ := e
      exact ih _ (processLinks_seenLog sd dom mp md url depth _ _ h)

/-- C8: across one crawl run, every URL is enqueued at most once, and the
seen set is exactly the set of URLs ever enqueued (a URL enters `seen` the
moment it is first scheduled and is never re-enqueued). -/
theorem no_duplicate_enqueue (fetch : String → Option (List String))
    (robots : String → Bool) (start_url : String) (mp md : Int) (sd : Bool) :
    ((crawlFinal fetch robots start_url mp md sd).enqueuedLog.map
      Prod.fst).Nodup ∧
    ∀ x, x ∈ (crawlFinal fetch robots start_url mp md sd).seen ↔
      x ∈ (crawlFinal fetch robots start_url mp md sd).enqueuedLog.map
        Prod.fst := by
  have hinit : SeenLogInv
      ⟨DiGraph.empty, [normalize_url start_url ""],
        [(normalize_url start_url "", 0)], 0,
        [(normalize_url start_url "", 0)], 0⟩ := by
    constructor
    · simp [SeenLogInv]
    · intro x; simp
  rw [crawlFinal_def]
  exact crawlLoop_seenLog fetch robots sd _ mp md mp.toNat _ hinit

/-! ## C10 -/

theorem drainQueue_of_le (robots : String → Bool) (md : Int) :
    ∀ (q : List (String × Nat)) (disc : Nat),
    (∀ e ∈ q, (e.2 : Int) ≤ md) →
    (drainQueue robots md q disc).2 = disc ∧
    (∀ p rest, (drainQueue robots md q disc).1 = some (p, rest) →
      p ∈ q ∧ ∀ e ∈ rest, e ∈ q) := by
  intro q
  induction q with
  | nil =>
    intro disc _
    exact ⟨rfl, by intro p rest hp; rw [drainQueue] at hp; exact (by simp at hp)⟩
  | cons hd tl ih =>
    intro disc h
    obtain ⟨url, depth⟩ := hd
    rw [drainQueue]
    have hdd : ¬ ((depth : Int) > md) := by
      have := h (url, depth) (by simp)
      simp at this
      omega
    rw [if_neg hdd]
    by_cases hr : robots url
    · rw [if_neg (by simp [hr])]
      refine ⟨rfl, ?_⟩
      intro p rest hp
      simp only [Option.some.injEq, Prod.mk.injEq] at hp
      obtain ⟨rfl, rfl⟩ := hp
      exact ⟨by simp, fun e he => by simp [he]⟩
    · rw [if_pos (by simp [hr])]
      obtain ⟨ih1, ih2⟩ := ih disc (fun e he => h e (by simp [he]))
      refine ⟨ih1, ?_⟩
      intro p rest hp
      obtain ⟨hpm, hrm⟩ := ih2 p rest hp
      exact ⟨by simp [hpm], fun e he => by simp [hrm e he]⟩

theorem processLinks_depthInv (sd : Bool) (dom : Chars) (mp md : Int)
    (url : String) (depth : Nat) : ∀ (links : List String) (st : CrawlState),
    DepthInv md st → DepthInv md (processLinks sd dom mp md url depth links st) := by
  intro links
  induction links with
  | nil => intro st h; exact h
  | cons link rest ih =>
    intro st h
    rw [processLinks]
    split
    · exact ih st h
    split
    · exact ih st h
    apply ih
    split
    · next hcond =>
      obtain ⟨-, hdep, -⟩ := hcond
      obtain ⟨hq, hl, hd⟩ := h
      refine ⟨?_, ?_, hd⟩
      · intro e he
        simp only [List.mem_append, List.mem_singleton] at he
        rcases he with he | he
        · exact hq e he
        · subst he; push_cast; omega
      · intro e he
        simp only [List.mem_append, List.mem_singleton] at he
        rcases he with he | he
        · exact hl e he
        · subst he; push_cast; omega
    · exact h

theorem crawlLoop_depthInv (fetch : String → Option (List String))
    (robots : String → Bool) (sd : Bool) (dom : Chars) (mp md : Int) :
    ∀ (fuel : Nat) (st : CrawlState),
    DepthInv md st → DepthInv md (crawlLoop fetch robots sd dom mp md fuel st) := by
  intro fuel
  induction fuel with
  | zero => intro st h; exact h
  | succ n ih =>
    intro st h
    obtain ⟨hq, hl, hd⟩ := h
    rw [crawlLoop]
    rcases hdq : drainQueue robots md st.queue st.discarded with ⟨res, d⟩
    have hspec := drainQueue_of_le robots md st.queue st.discarded hq
    rw [hdq] at hspec
    obtain ⟨hdisc, hres⟩ := hspec
    cases res with
    | none =>
      refine ⟨by simp, hl, ?_⟩
      exact (show d = st.discarded from hdisc).trans hd
    | some e =>
      obtain ⟨⟨url, depth⟩, rest⟩ := e
      obtain ⟨-, hrest⟩ := hres ⟨url, depth⟩ rest rfl
      apply ih
      apply processLinks_depthInv
      refine ⟨fun e he => hq e (hrest e he), hl, ?_⟩
      exact (show d = st.discarded from hdisc).trans hd

/-- C10: with `max_depth ≥ 0`, every entry ever placed on the frontier
(seed at depth 0, links at `depth + 1 ≤ max_depth`) has depth at most
`max_depth`, and the dequeue-time branch that discards over-depth entries
never fires (`discarded = 0`). -/
theorem frontier_depth_bounded (fetch : String → Option (List String))
    (robots : String → Bool) (start_url : String) (mp md : Int) (sd : Bool)
    (h : 0 ≤ md) :
    (∀ e ∈ (crawlFinal fetch robots start_url mp md sd).enqueuedLog,
      (e.2 : Int) ≤ md) ∧
    (crawlFinal fetch robots start_url mp md sd).discarded = 0 := by
  have hinit : DepthInv md
      ⟨DiGraph.empty, [normalize_url start_url ""],
        [(normalize_url start_url "", 0)], 0,
        [(normalize_url start_url "", 0)], 0⟩ := by
    refine ⟨?_, ?_, rfl⟩
    · intro e he
      simp at he
      subst he
      simpa using h
    · intro e he
      simp at he
      subst he
      simpa using h
  rw [crawlFinal_def]
  have hfin := crawlLoop_depthInv fetch robots sd
    (netlocOf (normalize_url start_url "")) mp md mp.toNat _ hinit
  exact ⟨hfin.2.1, hfin.2.2⟩

/-- Witness for C10 on the linear-chain run. -/
theorem frontier_depth_bounded_witness :
    (0 : Int) ≤ 2 ∧
    ((∀ e ∈ (crawlFinal fetchChain robotsAlways "http://a.com" 10 2
        true).enqueuedLog, (e.2 : Int) ≤ 2) ∧
    (crawlFinal fetchChain robotsAlways "http://a.com" 10 2 true).discarded = 0) :=
  ⟨by decide, frontier_depth_bounded fetchChain robotsAlways "http://a.com" 10 2
    true (by decide)⟩

/-! ## C7 invariant part -/

theorem add_node_edges (G : DiGraph) (u : String) :
    (G.add_node u).edges = G.edges := by
  rw [DiGraph.add_node]
  split <;> rfl

theorem add_edge_edges (G : DiGraph) (u v : String) :
    (G.add_edge u v).edges =
      if (u, v) ∈ G.edges then G.edges else G.edges ++ [(u, v)] := by
  have hnn : ((G.add_node u).add_node v).edges = G.edges := by
    rw [add_node_edges, add_node_edges]
  rw [DiGraph.add_edge, hnn]
  split
  · exact hnn
  · rfl

theorem add_edge_edges_sub (G : DiGraph) (u v : String) :
    ∀ e ∈ (G.add_edge u v).edges, e ∈ G.edges ∨ e = (u, v) := by
  intro e he
  rw [add_edge_edges] at he
  by_cases hmem : (u, v) ∈ G.edges
  · rw [if_pos hmem] at he
    exact Or.inl he
  · rw [if_neg hmem] at he
    rcases List.mem_append.mp he with h1 | h1
    · exact Or.inl h1
    · exact Or.inr (List.mem_singleton.mp h1)

theorem processLinks_domainInv (dom : Chars) (mp md : Int) (url : String)
    (depth : Nat) : ∀ (links : List String) (st : CrawlState),
    DomainInv dom st →
    DomainInv dom (processLinks true dom mp md url depth links st) := by
  intro links
  induction links with
  | nil => intro st h; exact h
  | cons link rest ih =>
    intro st h
    rw [processLinks]
    split
    · exact ih st h
    split
    · exact ih st h
    · next hcond =>
      have hdom : netlocOf link = dom := by
        by_contra hne
        exact hcond ⟨rfl, hne⟩
      apply ih
      have h' : DomainInv dom
          { st with graph := st.graph.add_edge url link } := by
        intro e he
        rcases add_edge_edges_sub st.graph url link e he with hmem | heq
        · exact h e hmem
        · subst heq; exact hdom
      split
      · exact h'
      · exact h'

theorem crawlLoop_domainInv (fetch : String → Option (List String))
    (robots : String → Bool) (dom : Chars) (mp md : Int) :
    ∀ (fuel : Nat) (st : CrawlState),
    DomainInv dom st →
    DomainInv dom (crawlLoop fetch robots true dom mp md fuel st) := by
  intro fuel
  induction fuel with
  | zero => intro st h; exact h
  | succ n ih =>
    intro st h
    rw [crawlLoop]
    rcases hdq : drainQueue robots md st.queue st.discarded with ⟨res, d⟩
    cases res with
    | none => exact h
    | some e =>
      obtain ⟨⟨url, depth⟩, rest⟩ := e
      apply ih
      apply processLinks_domainInv
      intro e' he'
      rw [add_node_edges] at he'
      exact h e' he'

end WebsiteGraph

namespace WebsiteGraph

/-! ## `urlsplit` is insensitive to trailing slashes (scheme and netloc) -/

theorem takeWhile_replicate_of_pos {p : Char → Bool} {c : Char}
    (h : p c = true) (m : Nat) :
    (List.replicate m c).takeWhile p = List.replicate m c := by
  induction m with
  | zero => rfl
  | succ n ih => rw [List.replicate_succ, List.takeWhile_cons, if_pos h, ih]

theorem takeWhile_replicate_of_neg {p : Char → Bool} {c : Char}
    (h : p c = false) (m : Nat) :
    (List.replicate m c).takeWhile p = [] := by
  cases m with
  | zero => rfl
  | succ n => rw [List.replicate_succ, List.takeWhile_cons, if_neg (by simp [h])]

theorem dropWhile_replicate_of_neg {p : Char → Bool} {c : Char}
    (h : p c = false) (m : Nat) :
    (List.replicate m c).dropWhile p = List.replicate m c := by
  cases m with
  | zero => rfl
  | succ n => rw [List.replicate_succ, List.dropWhile_cons, if_neg (by simp [h])]

theorem filter_replicate_of_pos {q : Char → Bool} {c : Char}
    (h : q c = true) (m : Nat) :
    (List.replicate m c).filter q = List.replicate m c := by
  rw [List.filter_eq_self]
  intro a ha
  rw [List.eq_of_mem_replicate ha]
  exact h

theorem cleanUrl_append_slashes (a : Chars) (m : Nat) :
    cleanUrl (a ++ List.replicate m '/') = cleanUrl a ++ List.replicate m '/' := by
  unfold cleanUrl
  rw [List.dropWhile_append]
  split
  · next hemp =>
    rw [List.isEmpty_iff] at hemp
    rw [hemp, dropWhile_replicate_of_neg (by decide), List.filter_nil,
      List.nil_append]
    exact filter_replicate_of_pos (by decide) m
  · rw [List.filter_append, filter_replicate_of_pos (by decide)]

theorem splitScheme_append_slashes (d y : Chars) (m : Nat) :
    splitScheme d (y ++ List.replicate m '/') =
      ((splitScheme d y).1, (splitScheme d y).2 ++ List.replicate m '/') := by
  have hple : (y.takeWhile (fun c => c != ':')).length ≤ y.length :=
    List.IsPrefix.length_le (List.takeWhile_prefix _)
  by_cases hc : (y.takeWhile (fun c => c != ':')).length = y.length
  case pos =>
    have htw : (y ++ List.replicate m '/').takeWhile (fun c => c != ':') =
        y ++ List.replicate m '/' := by
      rw [List.takeWhile_append, if_pos hc,
        takeWhile_replicate_of_pos (by decide)]
    unfold splitScheme
    split
    · next hL =>
      exfalso
      rw [htw] at hL
      exact hL.2.1 rfl
    · split
      · next hR => exact absurd hc hR.2.1
      · rfl
  case neg =>
    have htw : (y ++ List.replicate m '/').takeWhile (fun c => c != ':') =
        y.takeWhile (fun c => c != ':') := by
      rw [List.takeWhile_append, if_neg hc]
    unfold splitScheme
    split
    · next hL =>
      rw [htw] at hL
      obtain ⟨hA, -, hC, hD⟩ := hL
      have hy0 : y ≠ [] := by
        intro h
        subst h
        exact hA rfl
      have hhead : (y ++ List.replicate m '/').headD '0' = y.headD '0' := by
        cases y with
        | nil => exact absurd rfl hy0
        | cons a t => rfl
      rw [hhead] at hC
      split
      · next hR =>
        rw [htw]
        congr 1
        rw [List.drop_append_eq_append_drop,
          Nat.sub_eq_zero_of_le (by omega), List.drop_zero]
      · next hR =>
        exact absurd ⟨hA, hc, hC, hD⟩ hR
    · next hL =>
      split
      · next hR =>
        exfalso
        apply hL
        rw [htw]
        have hy0 : y ≠ [] := by
          intro h
          subst h
          exact hR.1 rfl
        have hhead : (y ++ List.replicate m '/').headD '0' = y.headD '0' := by
          cases y with
          | nil => exact absurd rfl hy0
          | cons a t => rfl
        rw [hhead]
        refine ⟨hR.1, ?_, hR.2.2.1, hR.2.2.2⟩
        rw [List.length_append, List.length_replicate]
        omega
      · rfl

theorem takeWhile_netloc_append_slashes (x : Chars) (m : Nat) :
    (x ++ List.replicate m '/').takeWhile (fun c => !isNetlocDelim c) =
      x.takeWhile (fun c => !isNetlocDelim c) := by
  rw [List.takeWhile_append]
  split
  · next hlen =>
    rw [takeWhile_replicate_of_neg (by decide), List.append_nil]
    exact ((List.takeWhile_prefix _).eq_of_length hlen).symm
  · rfl

theorem splitNetloc_fst_append_slashes (r : Chars) (m : Nat) :
    (splitNetloc (r ++ List.replicate m '/')).1 = (splitNetloc r).1 := by
  by_cases h2 : r.take 2 = ['/', '/']
  · obtain ⟨r', rfl⟩ : ∃ r', r = '/' :: '/' :: r' := by
      cases r with
      | nil => simp at h2
      | cons a r1 =>
        cases r1 with
        | nil => simp [List.take] at h2
        | cons b r2 =>
          simp [List.take] at h2
          obtain ⟨rfl, rfl⟩ := h2
          exact ⟨r2, rfl⟩
    unfold splitNetloc
    rw [if_pos (by rfl), if_pos (by rfl)]
    show ((('/' :: '/' :: r' ++ List.replicate m '/').drop 2).takeWhile _) = _
    rw [show ('/' :: '/' :: r' ++ List.replicate m '/').drop 2 =
      r' ++ List.replicate m '/' from rfl]
    rw [show ('/' :: '/' :: r' : Chars).drop 2 = r' from rfl]
    exact takeWhile_netloc_append_slashes r' m
  · unfold splitNetloc
    rw [if_neg h2]
    cases r with
    | nil =>
      rw [List.nil_append]
      rcases m with _ | _ | k
      · rw [if_neg (by simp)]
      · rw [if_neg (by simp [List.replicate, List.take])]
      · rw [if_pos (by simp [List.replicate, List.take])]
        rw [show (List.replicate (k + 2) '/').drop 2 = List.replicate k '/' by
          simp [List.replicate]]
        exact takeWhile_replicate_of_neg (by decide) k
    | cons a r1 =>
      by_cases ha : a = '/'
      · subst ha
        cases r1 with
        | nil =>
          rcases m with _ | k
          · rw [if_neg (by decide)]
          · rw [if_pos (by simp [List.replicate, List.take])]
            rw [show (('/' :: ([] : Chars)) ++ List.replicate (k + 1) '/' =
              '/' :: '/' :: List.replicate k '/') by simp [List.replicate]]
            rw [show ('/' :: '/' :: List.replicate k '/' : Chars).drop 2 =
              List.replicate k '/' from rfl]
            exact takeWhile_replicate_of_neg (by decide) k
        | cons b r2 =>
          have hb : b ≠ '/' := by
            intro hb
            subst hb
            exact h2 (by simp [List.take])
          rw [if_neg (by simp [List.take, hb])]
      · rw [if_neg (by simp [List.take, ha])]

theorem urlsplit_pyRstrip (x d : Chars) :
    (urlsplitC (pyRstripSlashes x) d).scheme = (urlsplitC x d).scheme ∧
    (urlsplitC (pyRstripSlashes x) d).netloc = (urlsplitC x d).netloc := by
  obtain ⟨m, hm⟩ := pyRstrip_eq_append x
  have hclean : cleanUrl x =
      cleanUrl (pyRstripSlashes x) ++ List.replicate m '/' := by
    conv_lhs => rw [← hm]
    exact cleanUrl_append_slashes _ m
  constructor
  · show (splitScheme (cleanScheme d) (cleanUrl (pyRstripSlashes x))).1 =
      (splitScheme (cleanScheme d) (cleanUrl x)).1
    rw [hclean, splitScheme_append_slashes]
  · show (splitNetloc (splitScheme (cleanScheme d)
        (cleanUrl (pyRstripSlashes x))).2).1 =
      (splitNetloc (splitScheme (cleanScheme d) (cleanUrl x)).2).1
    rw [hclean, splitScheme_append_slashes]
    exact (splitNetloc_fst_append_slashes _ m).symm

theorem urlparse_netloc (u d : Chars) :
    (urlparseC u d).netloc = (urlsplitC u d).netloc := by
  unfold urlparseC
  dsimp only
  split <;> rfl

theorem urlparse_scheme (u d : Chars) :
    (urlparseC u d).scheme = (urlsplitC u d).scheme := by
  unfold urlparseC
  dsimp only
  split <;> rfl

theorem netlocOf_pyRstrip (s : String) :
    netlocOf ⟨pyRstripSlashes s.data⟩ = netlocOf s := by
  unfold netlocOf
  rw [urlparse_netloc, urlparse_netloc]
  exact (urlsplit_pyRstrip s.data []).2

theorem netlocOf_normalize_seed (s : String) :
    netlocOf (normalize_url s "") = netlocOf s := by
  by_cases hs : s.data = []
  · obtain rfl : s = ⟨[]⟩ := by
      cases s
      simp_all
    rfl
  · have hjoin : urljoinC s.data (("" : String).data.takeWhile
        (fun c => c != '#')) = s.data := by
      show urljoinC s.data [] = s.data
      unfold urljoinC
      rw [if_neg hs, if_pos rfl]
    show netlocOf ⟨pyRstripSlashes (urljoinC s.data _)⟩ = netlocOf s
    rw [hjoin]
    exact netlocOf_pyRstrip s

/-! ## C7 -/

/-- C7: with the same-domain restriction enabled, every edge in the finished
graph has a target whose host equals the seed URL's host: the
`urlparse(link).netloc != domain` guard runs before every `add_edge`, and
the crawl `domain` (the normalized seed's netloc) equals the seed's netloc
because stripping trailing slashes never changes the parsed netloc. -/
theorem same_domain_filter_edges (fetch : String → Option (List String))
    (robots : String → Bool) (start_url : String) (mp md : Int) :
    ∀ e ∈ (build_website_graph fetch robots start_url mp md true).edges,
      netlocOf e.2 = netlocOf start_url := by
  have hinv := crawlLoop_domainInv fetch robots
    (netlocOf (normalize_url start_url "")) mp md mp.toNat
    ⟨DiGraph.empty, [normalize_url start_url ""],
      [(normalize_url start_url "", 0)], 0, [(normalize_url start_url "", 0)], 0⟩
    (fun e' he' => absurd he' (List.not_mem_nil e'))
  intro e he
  rw [← netlocOf_normalize_seed start_url]
  exact hinv e he

theorem same_domain_filter_edges_witness :
    ("http://a.com", "http://a.com/b") ∈
      (build_website_graph fetchTwoLinks robotsAlways "http://a.com" 10 2
        true).edges ∧
    netlocOf "http://a.com/b" = netlocOf "http://a.com" :=
  ⟨by decide, same_domain_filter_edges fetchTwoLinks robotsAlways
    "http://a.com" 10 2 ("http://a.com", "http://a.com/b") (by decide)⟩

end WebsiteGraph

namespace WebsiteGraph

/-! ## Toolkit for the URL idempotence analysis -/

theorem takeWhile_append_of_all {p : Char → Bool} {a : Chars} (b : Chars)
    (h : ∀ c ∈ a, p c = true) : (a ++ b).takeWhile p = a ++ b.takeWhile p := by
  induction a with
  | nil => rfl
  | cons c t ih =>
    rw [List.cons_append, List.takeWhile_cons, if_pos (h c (by simp)),
      ih (fun x hx => h x (by simp [hx])), List.cons_append]

theorem takeWhile_append_stop {p : Char → Bool} {a : Chars} {x : Char}
    (t : Chars) (h : ∀ c ∈ a, p c = true) (hx : p x = false) :
    (a ++ x :: t).takeWhile p = a := by
  rw [takeWhile_append_of_all _ h, List.takeWhile_cons, if_neg (by simp [hx]),
    List.append_nil]

theorem drop_append_cons (a : Chars) (x : Char) (t : Chars) :
    (a ++ x :: t).drop (a.length + 1) = t := by
  rw [List.drop_append_eq_append_drop, List.drop_eq_nil_of_le (by omega),
    List.nil_append]
  have h1 : a.length + 1 - a.length = 1 := by omega
  rw [h1]
  rfl

theorem dropWhile_eq_drop_length_takeWhile (p : Char → Bool) (l : Chars) :
    l.drop (l.takeWhile p).length = l.dropWhile p := by
  induction l with
  | nil => rfl
  | cons c t ih =>
    rw [List.takeWhile_cons, List.dropWhile_cons]
    by_cases hp : p c
    · rw [if_pos hp, if_pos hp, List.length_cons]
      exact ih
    · rw [if_neg hp, if_neg hp]
      rfl

theorem pyRstrip_prefix (x : Chars) : pyRstripSlashes x <+: x := by
  unfold pyRstripSlashes
  have h : (x.reverse.dropWhile (fun c => c == '/')) <:+ x.reverse :=
    List.dropWhile_suffix _
  have h2 := List.reverse_prefix.mpr h
  rwa [List.reverse_reverse] at h2

theorem take_one_slash {q : Chars} (h : q.take 1 = ['/']) :
    ∃ t, q = '/' :: t := by
  cases q with
  | nil => simp at h
  | cons c t =>
    refine ⟨t, ?_⟩
    simp [List.take] at h
    rw [h]

theorem pyRstrip_head_slash {x : Chars} (h : x = [] ∨ x.take 1 = ['/']) :
    pyRstripSlashes x = [] ∨ (pyRstripSlashes x).take 1 = ['/'] := by
  rcases h with rfl | h
  · exact Or.inl rfl
  obtain ⟨t, rfl⟩ := take_one_slash h
  cases hr : pyRstripSlashes ('/' :: t) with
  | nil => exact Or.inl rfl
  | cons c t1 =>
    right
    obtain ⟨t2, ht⟩ := pyRstrip_prefix ('/' :: t)
    rw [hr, List.cons_append] at ht
    obtain rfl : c = '/' := (List.cons.inj ht).1
    simp [List.take]

theorem filter_not_unsafe_eq_self {x : Chars}
    (h : ∀ c ∈ x, isUnsafeByte c = false) :
    x.filter (fun c => !isUnsafeByte c) = x := by
  rw [List.filter_eq_self]
  intro a ha
  simp [h a ha]

theorem contains_false_of_not_mem {x : Chars} {c : Char} (h : c ∉ x) :
    x.contains c = false := by
  by_contra hc
  simp only [Bool.not_eq_false] at hc
  exact h (by simpa using hc)

end WebsiteGraph

namespace WebsiteGraph

/-! ## Parsing a canonical absolute URL `scheme://netloc path` -/

theorem cleanUrl_canonical (S nu q : Chars)
    (hSne : S ≠ [])
    (hSu : ∀ c ∈ S, isUnsafeByte c = false)
    (hhead : isC0OrSpace (S.headD '0') = false)
    (hnuc : ∀ c ∈ nu, isUnsafeByte c = false)
    (hqc : ∀ c ∈ q, isUnsafeByte c = false) :
    cleanUrl (S ++ ':' :: '/' :: '/' :: (nu ++ q)) =
      S ++ ':' :: '/' :: '/' :: (nu ++ q) := by
  unfold cleanUrl
  have hdw : (S ++ ':' :: '/' :: '/' :: (nu ++ q)).dropWhile isC0OrSpace =
      S ++ ':' :: '/' :: '/' :: (nu ++ q) := by
    cases S with
    | nil => exact absurd rfl hSne
    | cons s0 st =>
      rw [List.cons_append, List.dropWhile_cons,
        if_neg (by simp_all [List.headD])]
  rw [hdw]
  apply filter_not_unsafe_eq_self
  intro a ha
  simp only [List.mem_append, List.mem_cons] at ha
  rcases ha with ha | rfl | rfl | rfl | ha | ha
  · exact hSu a ha
  · rfl
  · rfl
  · rfl
  · exact hnuc a ha
  · exact hqc a ha

theorem urlsplit_canonical_gen (d S nu q : Chars)
    (hSne : S ≠ [])
    (hSchars : ∀ c ∈ S, (c != ':') = true ∧ isSchemeChar c = true)
    (halpha : (S.headD '0').isAlpha = true)
    (hclean : cleanUrl (S ++ ':' :: '/' :: '/' :: (nu ++ q)) =
      S ++ ':' :: '/' :: '/' :: (nu ++ q))
    (_hnu : nu ≠ [])
    (hnuc : ∀ c ∈ nu, isNetlocDelim c = false)
    (hqc : ∀ c ∈ q, c ≠ '?' ∧ c ≠ '#')
    (hqh : q = [] ∨ q.take 1 = ['/']) :
    urlsplitC (S ++ ':' :: '/' :: '/' :: (nu ++ q)) d =
      ⟨S.map Char.toLower, nu, q, [], []⟩ := by
  have htakeS : (S ++ ':' :: '/' :: '/' :: (nu ++ q)).takeWhile
      (fun c => c != ':') = S :=
    takeWhile_append_stop _ (fun c hc => (hSchars c hc).1) (by decide)
  have hss : splitScheme (cleanScheme d) (S ++ ':' :: '/' :: '/' :: (nu ++ q)) =
      (S.map Char.toLower, '/' :: '/' :: (nu ++ q)) := by
    unfold splitScheme
    rw [htakeS]
    rw [if_pos]
    · rw [drop_append_cons]
    · refine ⟨fun h => hSne (List.length_eq_zero.mp h), ?_, ?_, ?_⟩
      · rw [List.length_append, List.length_cons]
        omega
      · cases S with
        | nil => exact absurd rfl hSne
        | cons s0 st => exact halpha
      · rw [List.all_eq_true]
        exact fun c hc => (hSchars c hc).2
  have htwNu : (nu ++ q).takeWhile (fun c => !isNetlocDelim c) = nu := by
    rcases hqh with rfl | hq1
    · rw [List.append_nil, List.takeWhile_eq_self_iff]
      intro c hc
      simp [hnuc c hc]
    · obtain ⟨t, rfl⟩ := take_one_slash hq1
      exact takeWhile_append_stop _ (fun c hc => by simp [hnuc c hc])
        (by decide)
  have hsn : splitNetloc ('/' :: '/' :: (nu ++ q)) = (nu, q) := by
    unfold splitNetloc
    rw [if_pos (show List.take 2 ('/' :: '/' :: (nu ++ q)) = ['/', '/'] from rfl)]
    rw [show ('/' :: '/' :: (nu ++ q)).drop 2 = nu ++ q from rfl]
    rw [htwNu, List.drop_left]
  have hq_hash : q.takeWhile (fun c => c != '#') = q := by
    rw [List.takeWhile_eq_self_iff]
    intro c hc
    simp [(hqc c hc).2]
  have hq_query : q.takeWhile (fun c => c != '?') = q := by
    rw [List.takeWhile_eq_self_iff]
    intro c hc
    simp [(hqc c hc).1]
  show (⟨_, _, _, _, _⟩ : SplitResult) = _
  rw [SplitResult.mk.injEq]
  refine ⟨?_, ?_, ?_, ?_, ?_⟩
  · show (splitScheme (cleanScheme d) (cleanUrl _)).1 = S.map Char.toLower
    rw [hclean, hss]
  · show (splitNetloc (splitScheme (cleanScheme d) (cleanUrl _)).2).1 = nu
    rw [hclean, hss, hsn]
  · show (splitFirst '?' (splitFirst '#' (splitNetloc (splitScheme
      (cleanScheme d) (cleanUrl _)).2).2).1).1 = q
    rw [hclean, hss, hsn]
    unfold splitFirst
    dsimp only
    rw [hq_hash, hq_query]
  · show (splitFirst '?' (splitFirst '#' (splitNetloc (splitScheme
      (cleanScheme d) (cleanUrl _)).2).2).1).2 = []
    rw [hclean, hss, hsn]
    unfold splitFirst
    dsimp only
    rw [hq_hash, hq_query]
    exact List.drop_eq_nil_of_le (by omega)
  · show (splitFirst '#' (splitNetloc (splitScheme (cleanScheme d)
      (cleanUrl _)).2).2).2 = []
    rw [hclean, hss, hsn]
    unfold splitFirst
    dsimp only
    rw [hq_hash]
    exact List.drop_eq_nil_of_le (by omega)

theorem urlparse_canonical_gen (d S nu q : Chars)
    (hSne : S ≠ [])
    (hSchars : ∀ c ∈ S, (c != ':') = true ∧ isSchemeChar c = true)
    (halpha : (S.headD '0').isAlpha = true)
    (hclean : cleanUrl (S ++ ':' :: '/' :: '/' :: (nu ++ q)) =
      S ++ ':' :: '/' :: '/' :: (nu ++ q))
    (hnu : nu ≠ [])
    (hnuc : ∀ c ∈ nu, isNetlocDelim c = false)
    (hqc : ∀ c ∈ q, c ≠ '?' ∧ c ≠ '#' ∧ c ≠ ';')
    (hqh : q = [] ∨ q.take 1 = ['/']) :
    urlparseC (S ++ ':' :: '/' :: '/' :: (nu ++ q)) d =
      ⟨S.map Char.toLower, nu, q, [], [], []⟩ := by
  unfold urlparseC
  dsimp only
  rw [urlsplit_canonical_gen d S nu q hSne hSchars halpha hclean hnu hnuc
    (fun c hc => ⟨(hqc c hc).1, (hqc c hc).2.1⟩) hqh]
  rw [if_neg]
  intro hcond
  have hsemi : ';' ∈ q := by simpa using hcond.2
  exact (hqc ';' hsemi).2.2 rfl

theorem urlunsplit_canonical (S nu q : Chars)
    (hSne : S ≠ []) (hnu : nu ≠ [])
    (hqh : q = [] ∨ q.take 1 = ['/']) :
    urlunsplitC ⟨S, nu, q, [], []⟩ = S ++ ':' :: '/' :: '/' :: (nu ++ q) := by
  unfold urlunsplitC
  dsimp only
  rw [if_pos (Or.inl hnu)]
  rw [if_neg (show ¬(q ≠ [] ∧ q.take 1 ≠ ['/']) by
    rcases hqh with rfl | h
    · intro hc; exact hc.1 rfl
    · intro hc; exact hc.2 h)]
  rw [if_pos hSne]
  rw [if_neg (fun h => h rfl), if_neg (fun h => h rfl)]
  simp

theorem urljoin_canonical_fix (bchars S nu q : Chars)
    (hb : bchars ≠ [])
    (hbs : (urlparseC bchars []).scheme = S)
    (hS : S = "http".data ∨ S = "https".data)
    (hnu : nu ≠ [])
    (hnuc : ∀ c ∈ nu, isNetlocDelim c = false ∧ isUnsafeByte c = false)
    (hqc : ∀ c ∈ q, c ≠ '?' ∧ c ≠ '#' ∧ c ≠ ';' ∧ isUnsafeByte c = false)
    (hqh : q = [] ∨ q.take 1 = ['/']) :
    urljoinC bchars (S ++ ':' :: '/' :: '/' :: (nu ++ q)) =
      S ++ ':' :: '/' :: '/' :: (nu ++ q) := by
  have hSne : S ≠ [] := by rcases hS with rfl | rfl <;> decide
  have hSchars : ∀ c ∈ S, (c != ':') = true ∧ isSchemeChar c = true := by
    rcases hS with rfl | rfl <;> decide
  have hSu : ∀ c ∈ S, isUnsafeByte c = false := by
    rcases hS with rfl | rfl <;> decide
  have hhead : isC0OrSpace (S.headD '0') = false := by
    rcases hS with rfl | rfl <;> decide
  have halpha : (S.headD '0').isAlpha = true := by
    rcases hS with rfl | rfl <;> decide
  have hlower : S.map Char.toLower = S := by rcases hS with rfl | rfl <;> decide
  have hrel : S ∈ uses_relative := by rcases hS with rfl | rfl <;> decide
  have hnetl : S ∈ uses_netloc := by rcases hS with rfl | rfl <;> decide
  have hx : S ++ ':' :: '/' :: '/' :: (nu ++ q) ≠ [] := by
    cases S with
    | nil => exact absurd rfl hSne
    | cons s0 st => simp
  have hclean := cleanUrl_canonical S nu q hSne hSu hhead
    (fun c hc => (hnuc c hc).2) (fun c hc => (hqc c hc).2.2.2)
  have hparse0 := urlparse_canonical_gen (urlparseC bchars []).scheme S nu q
    hSne hSchars halpha hclean hnu (fun c hc => (hnuc c hc).1)
    (fun c hc => ⟨(hqc c hc).1, (hqc c hc).2.1, (hqc c hc).2.2.1⟩) hqh
  rw [hlower] at hparse0
  have hparse := hparse0
  unfold urljoinC
  rw [if_neg hb, if_neg hx]
  dsimp only
  rw [hparse]
  dsimp only
  rw [hbs]
  rw [if_neg (fun h => h.elim (fun h1 => h1 rfl) (fun h2 => h2 hrel))]
  rw [if_pos ⟨hnetl, hnu⟩]
  unfold urlunparseC
  rw [if_neg (fun h => h rfl)]
  exact urlunsplit_canonical S nu q hSne hnu hqh

end WebsiteGraph

namespace WebsiteGraph

/-! ## Commutation lemmas for fragment-stripping vs. `urlsplit` cleaning -/

theorem takeWhile_pred_congr {p q : Char → Bool} (h : ∀ c, p c = q c)
    (l : Chars) : l.takeWhile p = l.takeWhile q := by
  induction l with
  | nil => rfl
  | cons c t ih =>
    rw [List.takeWhile_cons, List.takeWhile_cons, h c]
    cases hqc : q c
    · simp
    · simp [ih]

theorem takeWhile_filter_comm {p q : Char → Bool}
    (h : ∀ c, q c = false → p c = true) (x : Chars) :
    (x.takeWhile p).filter q = (x.filter q).takeWhile p := by
  induction x with
  | nil => rfl
  | cons c t ih =>
    by_cases hp : p c = true
    · rw [List.takeWhile_cons, if_pos hp]
      by_cases hq : q c = true
      · rw [List.filter_cons_of_pos hq, List.filter_cons_of_pos hq,
          List.takeWhile_cons, if_pos hp, ih]
      · rw [List.filter_cons_of_neg (by simp_all),
          List.filter_cons_of_neg (by simp_all), ih]
    · have hq : q c = true := by
        by_contra hqc
        simp only [Bool.not_eq_true] at hqc
        exact hp (h c hqc)
      rw [List.takeWhile_cons, if_neg (by simp_all), List.filter_nil,
        List.filter_cons_of_pos hq, List.takeWhile_cons, if_neg (by simp_all)]

theorem takeWhile_dropWhile_comm {p s : Char → Bool}
    (h : ∀ c, s c = true → p c = true) (x : Chars) :
    (x.takeWhile p).dropWhile s = (x.dropWhile s).takeWhile p := by
  induction x with
  | nil => rfl
  | cons c t ih =>
    by_cases hs : s c = true
    · rw [List.takeWhile_cons, if_pos (h c hs), List.dropWhile_cons,
        if_pos hs, List.dropWhile_cons, if_pos hs, ih]
    · by_cases hp : p c = true
      · rw [List.takeWhile_cons, if_pos hp, List.dropWhile_cons, if_neg hs,
          List.dropWhile_cons, if_neg hs, List.takeWhile_cons, if_pos hp]
      · rw [List.takeWhile_cons, if_neg hp, List.dropWhile_cons, if_neg hs,
          List.takeWhile_cons, if_neg hp]
        rfl

theorem cleanUrl_takeWhile_hash (x : Chars) :
    cleanUrl (x.takeWhile (fun c => c != '#')) =
      (cleanUrl x).takeWhile (fun c => c != '#') := by
  unfold cleanUrl
  rw [takeWhile_dropWhile_comm (fun c hc => by
    have hne : c ≠ '#' := by
      intro hch
      subst hch
      exact absurd hc (by decide)
    simpa using hne)]
  rw [takeWhile_filter_comm (fun c hc => by
    have hne : c ≠ '#' := by
      intro hch
      subst hch
      simp at hc
      exact absurd hc (by decide)
    simpa using hne)]

theorem mem_cleanUrl_sub {c : Char} {x : Chars} (h : c ∈ cleanUrl x) : c ∈ x := by
  unfold cleanUrl at h
  have h1 := List.mem_of_mem_filter h
  exact (List.dropWhile_sublist _).subset h1

theorem mem_cleanUrl_unsafeByte_false {c : Char} {x : Chars} (h : c ∈ cleanUrl x) :
    isUnsafeByte c = false := by
  unfold cleanUrl at h
  have := List.of_mem_filter h
  simpa using this

theorem take2_shape {l : Chars} (h : l.take 2 = ['/', '/']) :
    ∃ r, l = '/' :: '/' :: r := by
  cases l with
  | nil => simp at h
  | cons a t =>
    cases t with
    | nil => simp [List.take] at h
    | cons b r =>
      simp [List.take] at h
      obtain ⟨rfl, rfl⟩ := h
      exact ⟨r, rfl⟩

end WebsiteGraph

namespace WebsiteGraph

/-! ## Idempotence of `normalize_url` on valid absolute URLs (and its failure
on URLs whose query consists of slashes only) -/

theorem isUnsafeByte_c0 {c : Char} (h : isUnsafeByte c = true) :
    isC0OrSpace c = true := by
  unfold isUnsafeByte at h
  simp only [Bool.or_eq_true, beq_iff_eq] at h
  rcases h with (rfl | rfl) | rfl <;> decide

theorem cleanUrl_idem (x : Chars) : cleanUrl (cleanUrl x) = cleanUrl x := by
  have hdw : (cleanUrl x).dropWhile isC0OrSpace = cleanUrl x := by
    cases hy : x.dropWhile isC0OrSpace with
    | nil =>
      unfold cleanUrl
      rw [hy]
      rfl
    | cons h0 t0 =>
      have hc0 : isC0OrSpace h0 = false := dropWhile_head_false isC0OrSpace x hy
      have hu2 : isUnsafeByte h0 = false := by
        by_contra hcc
        simp only [Bool.not_eq_false] at hcc
        rw [isUnsafeByte_c0 hcc] at hc0
        exact absurd hc0 (by decide)
      unfold cleanUrl
      rw [hy, List.filter_cons_of_pos (by simp [hu2]), List.dropWhile_cons,
        if_neg (by simp [hc0])]
  show ((cleanUrl x).dropWhile isC0OrSpace).filter (fun c => !isUnsafeByte c) =
    cleanUrl x
  rw [hdw, List.filter_eq_self]
  intro a ha
  simp [mem_cleanUrl_unsafeByte_false ha]

theorem urlsplitC_eq_of_cleanUrl (d : Chars) {x y : Chars}
    (h : cleanUrl x = cleanUrl y) : urlsplitC x d = urlsplitC y d := by
  unfold urlsplitC
  rw [h]

theorem urlparseC_eq_of_cleanUrl (d : Chars) {x y : Chars}
    (h : cleanUrl x = cleanUrl y) : urlparseC x d = urlparseC y d := by
  unfold urlparseC
  rw [urlsplitC_eq_of_cleanUrl d h]

theorem headD_append_of_ne_nil {a : Chars} (b : Chars) (d : Char)
    (h : a ≠ []) : (a ++ b).headD d = a.headD d := by
  cases a with
  | nil => exact absurd rfl h
  | cons x t => rfl

/-- Structure of a URL accepted by `is_valid_scheme` that has a nonempty
netloc and contains no `?` or `;`: stripping the fragment and parsing (with
any default scheme) yields a lowercased http(s) scheme, the netloc, and a
path that is empty or starts with `/`; the fragment-stripped URL also
survives `rstrip('/')`. -/
theorem valid_url_parse_shape (u : String)
    (hv : is_valid_scheme u = true)
    (hn : netlocOf u ≠ [])
    (hq : ∀ c ∈ u.data, c ≠ '?')
    (hsemi : ∀ c ∈ u.data, c ≠ ';') :
    ∃ S nu q,
      (S = "http".data ∨ S = "https".data) ∧
      nu ≠ [] ∧
      (∀ c ∈ nu, isNetlocDelim c = false ∧ isUnsafeByte c = false) ∧
      (∀ c ∈ q, c ≠ '?' ∧ c ≠ '#' ∧ c ≠ ';' ∧ isUnsafeByte c = false) ∧
      (q = [] ∨ q.take 1 = ['/']) ∧
      pyRstripSlashes (u.data.takeWhile (fun c => c != '#')) ≠ [] ∧
      (∀ d, urlparseC (u.data.takeWhile (fun c => c != '#')) d =
        ⟨S, nu, q, [], [], []⟩) := by
  obtain ⟨w, hw⟩ : ∃ w, cleanUrl u.data = w := ⟨_, rfl⟩
  obtain ⟨pre, hpre⟩ : ∃ pre, w.takeWhile (fun c => c != ':') = pre := ⟨_, rfl⟩
  have hmem_w : ∀ c ∈ w, c ∈ u.data ∧ isUnsafeByte c = false := by
    intro c hc
    rw [← hw] at hc
    exact ⟨mem_cleanUrl_sub hc, mem_cleanUrl_unsafeByte_false hc⟩
  have hv2 : (urlparseC u.data []).scheme = "http".data ∨
      (urlparseC u.data []).scheme = "https".data := by
    unfold is_valid_scheme at hv
    simpa using hv
  by_cases hcond : pre.length ≠ 0 ∧ pre.length ≠ w.length ∧
      ((w.headD '0').isAlpha = true) ∧ (pre.all isSchemeChar = true)
  case neg =>
    exfalso
    have hz : (urlparseC u.data []).scheme = [] := by
      rw [urlparse_scheme]
      show (splitScheme (cleanScheme []) (cleanUrl u.data)).1 = []
      rw [hw]
      unfold splitScheme
      rw [hpre, if_neg hcond]
      rfl
    rcases hv2 with h | h <;> rw [hz] at h <;> exact absurd h (by decide)
  case pos =>
    obtain ⟨hA, hB, hC, hD⟩ := hcond
    have hpre_ne : pre ≠ [] := by
      intro h
      apply hA
      rw [h]
      rfl
    have hpre_scheme : ∀ c ∈ pre, isSchemeChar c = true := by
      intro c hc
      exact List.all_eq_true.mp hD c hc
    have hpre_colon : ∀ c ∈ pre, (c != ':') = true := by
      intro c hc
      have h2 := hc
      rw [← hpre] at h2
      have h3 := List.mem_takeWhile_imp h2
      simpa using h3
    have hpre_hash : ∀ c ∈ pre, (c != '#') = true := by
      intro c hc
      have h1 := hpre_scheme c hc
      have hne : c ≠ '#' := by
        intro hch
        rw [hch] at h1
        exact absurd h1 (by decide)
      simpa using hne
    have hwdec0 := List.takeWhile_append_dropWhile (fun c => c != ':') w
    rw [hpre] at hwdec0
    cases hdw : w.dropWhile (fun c => c != ':') with
    | nil =>
      exfalso
      rw [hdw, List.append_nil] at hwdec0
      exact hB (congrArg List.length hwdec0)
    | cons c0 t0 =>
      have hc0 : c0 = ':' := by
        have h1 := dropWhile_head_false (fun c => c != ':') w hdw
        simpa using h1
      subst hc0
      rw [hdw] at hwdec0
      have hss : ∀ d2, splitScheme d2 w = (pre.map Char.toLower, t0) := by
        intro d2
        have hdrop : w.drop (pre.length + 1) = t0 := by
          conv_lhs => rw [← hwdec0]
          exact drop_append_cons pre ':' t0
        unfold splitScheme
        rw [hpre, if_pos ⟨hA, hB, hC, hD⟩, hdrop]
      have hnet0 : netlocOf u = (splitNetloc t0).1 := by
        show (urlparseC u.data []).netloc = _
        rw [urlparse_netloc]
        show (splitNetloc (splitScheme (cleanScheme []) (cleanUrl u.data)).2).1 = _
        rw [hw, hss (cleanScheme [])]
      rw [hnet0] at hn
      have htk2 : t0.take 2 = ['/', '/'] := by
        by_contra htk
        apply hn
        unfold splitNetloc
        rw [if_neg htk]
      obtain ⟨rest, rfl⟩ := take2_shape htk2
      have hu_scheme : (urlparseC u.data []).scheme = pre.map Char.toLower := by
        rw [urlparse_scheme]
        show (splitScheme (cleanScheme []) (cleanUrl u.data)).1 = _
        rw [hw, hss (cleanScheme [])]
      rw [hu_scheme] at hv2
      have halpha' : (pre.headD '0').isAlpha = true := by
        have h1 : ((pre ++ ':' :: '/' :: '/' :: rest).headD '0') =
            pre.headD '0' := headD_append_of_ne_nil _ '0' hpre_ne
        have h2 := hC
        rw [← hwdec0, h1] at h2
        exact h2
      have hmem_rest : ∀ c ∈ rest, c ∈ u.data ∧ isUnsafeByte c = false := by
        intro c hc
        apply hmem_w
        rw [← hwdec0]
        simp [hc]
      obtain ⟨nu, hnu_def⟩ :
          ∃ v, rest.takeWhile (fun c => !isNetlocDelim c) = v := ⟨_, rfl⟩
      obtain ⟨q0, hq0_def⟩ :
          ∃ v, rest.dropWhile (fun c => !isNetlocDelim c) = v := ⟨_, rfl⟩
      obtain ⟨q, hq_def⟩ : ∃ v, q0.takeWhile (fun c => c != '#') = v := ⟨_, rfl⟩
      have hnu_ne : nu ≠ [] := by
        rw [← hnu_def]
        intro hemp
        apply hn
        unfold splitNetloc
        rw [if_pos (show List.take 2 ('/' :: '/' :: rest) = ['/', '/'] from rfl)]
        show (('/' :: '/' :: rest).drop 2).takeWhile (fun c => !isNetlocDelim c)
          = []
        rw [show ('/' :: '/' :: rest).drop 2 = rest from rfl]
        exact hemp
      have hnuc_full : ∀ c ∈ nu, isNetlocDelim c = false ∧
          isUnsafeByte c = false := by
        intro c hc
        have hcr : c ∈ rest := by
          have h2 := hc
          rw [← hnu_def] at h2
          exact (List.takeWhile_prefix _).sublist.subset h2
        have hdel : isNetlocDelim c = false := by
          have h2 := hc
          rw [← hnu_def] at h2
          have h3 := List.mem_takeWhile_imp h2
          simpa using h3
        exact ⟨hdel, (hmem_rest c hcr).2⟩
      have hqc_full : ∀ c ∈ q, c ≠ '?' ∧ c ≠ '#' ∧ c ≠ ';' ∧
          isUnsafeByte c = false := by
        intro c hc
        have hc0' : c ∈ q0 := by
          have h2 := hc
          rw [← hq_def] at h2
          exact (List.takeWhile_prefix _).sublist.subset h2
        have hcr : c ∈ rest := by
          have h2 := hc0'
          rw [← hq0_def] at h2
          exact (List.dropWhile_sublist _).subset h2
        have hcm := hmem_rest c hcr
        have hch : c ≠ '#' := by
          have h2 := hc
          rw [← hq_def] at h2
          have h3 := List.mem_takeWhile_imp h2
          simpa using h3
        exact ⟨hq c hcm.1, hch, hsemi c hcm.1, hcm.2⟩
      have hqh : q = [] ∨ q.take 1 = ['/'] := by
        rcases hq00 : q0 with _ | ⟨c1, t1⟩
        · left
          rw [← hq_def, hq00]
          rfl
        · have hdelim : isNetlocDelim c1 = true := by
            have h1 := dropWhile_head_false (fun c => !isNetlocDelim c) rest
              (hq0_def.trans hq00)
            simpa using h1
          have hc1r : c1 ∈ rest := by
            apply (List.dropWhile_sublist (fun c => !isNetlocDelim c)).subset
            rw [hq0_def, hq00]
            exact List.mem_cons_self c1 t1
          have hc1q : c1 ≠ '?' := hq c1 (hmem_rest c1 hc1r).1
          have hc1cases : c1 = '/' ∨ c1 = '#' := by
            unfold isNetlocDelim at hdelim
            simp only [Bool.or_eq_true, beq_iff_eq] at hdelim
            rcases hdelim with (h | h) | h
            · exact Or.inl h
            · exact absurd h hc1q
            · exact Or.inr h
          rcases hc1cases with rfl | rfl
          · right
            rw [← hq_def, hq00, List.takeWhile_cons, if_pos (by decide)]
            rfl
          · left
            rw [← hq_def, hq00, List.takeWhile_cons, if_neg (by decide)]
      have hrest : nu ++ q0 = rest := by
        rw [← hnu_def, ← hq0_def]
        exact List.takeWhile_append_dropWhile _ _
      have hnu_hash : ∀ c ∈ nu, (c != '#') = true := by
        intro c hc
        have h1 := (hnuc_full c hc).1
        have hne : c ≠ '#' := by
          intro hch
          rw [hch] at h1
          exact absurd h1 (by decide)
        simpa using hne
      have hresttw : rest.takeWhile (fun c => c != '#') = nu ++ q := by
        conv_lhs => rw [← hrest]
        rw [takeWhile_append_of_all _ hnu_hash, hq_def]
      have hw'0 : cleanUrl (u.data.takeWhile (fun c => c != '#')) =
          w.takeWhile (fun c => c != '#') := by
        rw [cleanUrl_takeWhile_hash, hw]
      have hw'1 : w.takeWhile (fun c => c != '#') =
          pre ++ ':' :: (('/' :: '/' :: rest).takeWhile (fun c => c != '#')) := by
        conv_lhs => rw [← hwdec0]
        rw [takeWhile_append_of_all _ hpre_hash, List.takeWhile_cons,
          if_pos (by decide)]
      have ht2 : ('/' :: '/' :: rest).takeWhile (fun c => c != '#') =
          '/' :: '/' :: (nu ++ q) := by
        rw [List.takeWhile_cons, if_pos (by decide), List.takeWhile_cons,
          if_pos (by decide), hresttw]
      have hw'' : cleanUrl (u.data.takeWhile (fun c => c != '#')) =
          pre ++ ':' :: '/' :: '/' :: (nu ++ q) := by
        rw [hw'0, hw'1, ht2]
      have hceq : cleanUrl (pre ++ ':' :: '/' :: '/' :: (nu ++ q)) =
          pre ++ ':' :: '/' :: '/' :: (nu ++ q) := by
        conv_lhs => rw [← hw'']
        rw [cleanUrl_idem, hw'']
      have hcc : cleanUrl (u.data.takeWhile (fun c => c != '#')) =
          cleanUrl (pre ++ ':' :: '/' :: '/' :: (nu ++ q)) := by
        rw [hw'', hceq]
      have hSchars' : ∀ c ∈ pre, (c != ':') = true ∧ isSchemeChar c = true :=
        fun c hc => ⟨hpre_colon c hc, hpre_scheme c hc⟩
      have hparse' : ∀ d2, urlparseC (u.data.takeWhile (fun c => c != '#')) d2 =
          ⟨pre.map Char.toLower, nu, q, [], [], []⟩ := by
        intro d2
        exact (urlparseC_eq_of_cleanUrl d2 hcc).trans
          (urlparse_canonical_gen d2 pre nu q hpre_ne hSchars' halpha' hceq
            hnu_ne (fun c hc => (hnuc_full c hc).1)
            (fun c hc => ⟨(hqc_full c hc).1, (hqc_full c hc).2.1,
              (hqc_full c hc).2.2.1⟩) hqh)
      obtain ⟨p0, pt, hpe⟩ := List.exists_cons_of_ne_nil hpre_ne
      have hp0mem : p0 ∈ pre := by
        rw [hpe]
        exact List.mem_cons_self _ _
      have hp0ne : p0 ≠ '/' := by
        intro h
        have h1 := hpre_scheme p0 hp0mem
        rw [h] at h1
        exact absurd h1 (by decide)
      have hp0u : p0 ∈ u.data.takeWhile (fun c => c != '#') := by
        apply mem_cleanUrl_sub
        rw [hw'']
        exact List.mem_append_left _ hp0mem
      exact ⟨pre.map Char.toLower, nu, q, hv2, hnu_ne, hnuc_full, hqc_full,
        hqh, pyRstrip_ne_nil hp0u hp0ne, hparse'⟩

/-- Counterexample to normalization idempotence as claimed for all valid
URLs: `http://a.com/x?/` is a valid http URL, its first normalization keeps a
dangling `?` (the slash-only query is stripped by `rstrip('/')`), and the
second normalization also drops the `?`, so the two results differ. -/
theorem normalize_url_not_idempotent_cex :
    is_valid_scheme "http://a.com/x?/" = true ∧
    normalize_url "http://a.com" "http://a.com/x?/" = "http://a.com/x?" ∧
    normalize_url "http://a.com"
        (normalize_url "http://a.com" "http://a.com/x?/") = "http://a.com/x" ∧
    normalize_url "http://a.com"
        (normalize_url "http://a.com" "http://a.com/x?/") ≠
      normalize_url "http://a.com" "http://a.com/x?/" := by
  refine ⟨by decide, by decide, by decide, by decide⟩

/-- **C4 (amended).** `normalize_url` is idempotent on every valid absolute
URL: if `u` passes `is_valid_scheme`, has a nonempty netloc, and contains no
`?` and no `;`, then re-normalizing the normalized URL against the same base
returns it unchanged.  (The unrestricted claim is false: see the slash-only
query counterexample.) -/
theorem normalize_url_idempotent (base u : String)
    (hv : is_valid_scheme u = true)
    (hn : netlocOf u ≠ [])
    (hq : ∀ c ∈ u.data, c ≠ '?')
    (hsemi : ∀ c ∈ u.data, c ≠ ';') :
    normalize_url base (normalize_url base u) = normalize_url base u := by
  obtain ⟨S, nu, q, hS, hnu, hnuc, hqc, hqh, hrne, hparse⟩ :=
    valid_url_parse_shape u hv hn hq hsemi
  have hu'ne : u.data.takeWhile (fun c => c != '#') ≠ [] := by
    intro h
    apply hrne
    rw [h]
    rfl
  have htw : (pyRstripSlashes (u.data.takeWhile (fun c => c != '#'))).takeWhile
      (fun c => c != '#') =
      pyRstripSlashes (u.data.takeWhile (fun c => c != '#')) := by
    rw [List.takeWhile_eq_self_iff]
    intro c hc
    have h2 := List.mem_takeWhile_imp (l := u.data) (pyRstrip_subset hc)
    simpa using h2
  by_cases hbnil : base.data = []
  · have hjnil : ∀ x : Chars, urljoinC [] x = x := by
      intro x
      unfold urljoinC
      rw [if_pos rfl]
    have hls : pyRstripSlashes (urljoinC base.data
        ((pyRstripSlashes (urljoinC base.data
          (u.data.takeWhile (fun c => c != '#')))).takeWhile
            (fun c => c != '#'))) =
        pyRstripSlashes (urljoinC base.data
          (u.data.takeWhile (fun c => c != '#'))) := by
      rw [hbnil]
      simp only [hjnil]
      rw [htw, pyRstrip_idem]
    exact congrArg String.mk hls
  · by_cases hmatch : (urlparseC base.data []).scheme = S
    · have hSne : S ≠ [] := by rcases hS with rfl | rfl <;> decide
      have hrel : S ∈ uses_relative := by rcases hS with rfl | rfl <;> decide
      have hnetl : S ∈ uses_netloc := by rcases hS with rfl | rfl <;> decide
      have hShash : ∀ c ∈ S, (c != '#') = true := by
        rcases hS with rfl | rfl <;> decide
      have hj1 : urljoinC base.data (u.data.takeWhile (fun c => c != '#')) =
          S ++ ':' :: '/' :: '/' :: (nu ++ q) := by
        unfold urljoinC
        rw [if_neg hbnil, if_neg hu'ne]
        dsimp only
        rw [hparse ((urlparseC base.data []).scheme)]
        dsimp only
        rw [if_neg (fun h => h.elim (fun h1 => h1 hmatch.symm)
          (fun h2 => h2 hrel))]
        rw [if_pos ⟨hnetl, hnu⟩]
        unfold urlunparseC
        rw [if_neg (fun h => h rfl)]
        exact urlunsplit_canonical S nu q hSne hnu hqh
      obtain ⟨cn, hcn⟩ : ∃ cn, nu.getLast? = some cn := by
        cases hnl : nu.getLast? with
        | none => exact absurd (List.getLast?_eq_none_iff.mp hnl) hnu
        | some c => exact ⟨c, rfl⟩
      have hcnnu : cn ∈ nu := List.mem_of_mem_getLast? hcn
      have hcnne : cn ≠ '/' := by
        intro h
        rw [h] at hcnnu
        have h1 := (hnuc '/' hcnnu).1
        exact absurd h1 (by decide)
      have hlastA : (S ++ ':' :: '/' :: '/' :: nu).getLast? = some cn := by
        have h1 : S ++ ':' :: '/' :: '/' :: nu = (S ++ [':', '/', '/']) ++ nu :=
          by simp
        rw [h1, List.getLast?_append_of_ne_nil _ hnu, hcn]
      have hassoc : S ++ ':' :: '/' :: '/' :: (nu ++ q) =
          (S ++ ':' :: '/' :: '/' :: nu) ++ q := by simp
      have hv1 : pyRstripSlashes (S ++ ':' :: '/' :: '/' :: (nu ++ q)) =
          (S ++ ':' :: '/' :: '/' :: nu) ++ pyRstripSlashes q := by
        rw [hassoc]
        exact pyRstrip_append q hlastA hcnne
      have hassoc2 : (S ++ ':' :: '/' :: '/' :: nu) ++ pyRstripSlashes q =
          S ++ ':' :: '/' :: '/' :: (nu ++ pyRstripSlashes q) := by simp
      have hq'c : ∀ c ∈ pyRstripSlashes q, c ≠ '?' ∧ c ≠ '#' ∧ c ≠ ';' ∧
          isUnsafeByte c = false := fun c hc => hqc c (pyRstrip_subset hc)
      have hq'h : pyRstripSlashes q = [] ∨ (pyRstripSlashes q).take 1 = ['/'] :=
        pyRstrip_head_slash hqh
      have htwv : (S ++ ':' :: '/' :: '/' ::
          (nu ++ pyRstripSlashes q)).takeWhile (fun c => c != '#') =
          S ++ ':' :: '/' :: '/' :: (nu ++ pyRstripSlashes q) := by
        rw [List.takeWhile_eq_self_iff]
        intro c hc
        simp only [List.mem_append, List.mem_cons] at hc
        rcases hc with hc | rfl | rfl | rfl | hc | hc
        · exact hShash c hc
        · decide
        · decide
        · decide
        · have h1 := (hnuc c hc).1
          have hne : c ≠ '#' := by
            intro hch
            rw [hch] at h1
            exact absurd h1 (by decide)
          simpa using hne
        · have h4 := (hq'c c hc).2.1
          simpa using h4
      have hj2 := urljoin_canonical_fix base.data S nu (pyRstripSlashes q)
        hbnil hmatch hS hnu hnuc hq'c hq'h
      have hls : pyRstripSlashes (urljoinC base.data
          ((pyRstripSlashes (urljoinC base.data
            (u.data.takeWhile (fun c => c != '#')))).takeWhile
              (fun c => c != '#'))) =
          pyRstripSlashes (urljoinC base.data
            (u.data.takeWhile (fun c => c != '#'))) := by
        rw [hj1, hv1, hassoc2, htwv, hj2]
        conv_lhs => rw [← hassoc2, ← hv1]
        rw [pyRstrip_idem, hv1, hassoc2]
      exact congrArg String.mk hls
    · have hj1 : urljoinC base.data (u.data.takeWhile (fun c => c != '#')) =
          u.data.takeWhile (fun c => c != '#') := by
        unfold urljoinC
        rw [if_neg hbnil, if_neg hu'ne]
        dsimp only
        rw [hparse ((urlparseC base.data []).scheme)]
        dsimp only
        rw [if_pos (Or.inl (fun he => hmatch he.symm))]
      have hsv : (urlparseC (pyRstripSlashes
          (u.data.takeWhile (fun c => c != '#')))
          ((urlparseC base.data []).scheme)).scheme = S := by
        rw [urlparse_scheme]
        rw [(urlsplit_pyRstrip (u.data.takeWhile (fun c => c != '#'))
          ((urlparseC base.data []).scheme)).1]
        rw [← urlparse_scheme]
        rw [hparse ((urlparseC base.data []).scheme)]
      have hj2 : urljoinC base.data (pyRstripSlashes
          (u.data.takeWhile (fun c => c != '#'))) =
          pyRstripSlashes (u.data.takeWhile (fun c => c != '#')) := by
        unfold urljoinC
        rw [if_neg hbnil, if_neg hrne]
        dsimp only
        rw [hsv]
        rw [if_pos (Or.inl (fun he => hmatch he.symm))]
      have hls : pyRstripSlashes (urljoinC base.data
          ((pyRstripSlashes (urljoinC base.data
            (u.data.takeWhile (fun c => c != '#')))).takeWhile
              (fun c => c != '#'))) =
          pyRstripSlashes (urljoinC base.data
            (u.data.takeWhile (fun c => c != '#'))) := by
        rw [hj1, htw, hj2, pyRstrip_idem]
      exact congrArg String.mk hls

theorem normalize_url_idempotent_witness :
    normalize_url "http://a.com" (normalize_url "http://a.com"
      "http://a.com/x/") = normalize_url "http://a.com" "http://a.com/x/" :=
  normalize_url_idempotent "http://a.com" "http://a.com/x/" (by decide)
    (by decide) (by decide) (by decide)

end WebsiteGraph
